import Mathlib

/-!
Verification development for the SBE zeeman solver (`SBE_zeeman.py`).

The Python source is shallowly embedded: NumPy float/complex arithmetic is
modelled by `ℝ`/`ℂ`, the per-path global state vector (4 components per
k-point plus one trailing vector-potential slot) by a function `ℕ → ℂ`, the
externally supplied band-energy / dipole evaluators by parameters, and the
time integration (scipy `zvode`) by an explicit discretized flow and, where a
claim is about the integration loop itself, by an abstract one-step
integrator.  Definitions are translated from the source; the few definitions
that are written from the specification's words instead are marked
`Modelled from the spec:` in their doc comment.
-/

set_option maxHeartbeats 1000000
set_option linter.unusedVariables false
set_option linter.unreachableTactic false
set_option linter.unnecessarySimpa false

namespace SBEZeeman

open Classical

/-- The gauge selector of `make_fnumba` (string tags in the source). -/
inductive Gauge
  | length
  | velocity
  | velocity_extra
deriving DecidableEq

/-- The external band-energy and dipole evaluators consumed by `make_fnumba`
(`sys.efjit`, `dipole_k.Axfjit/Ayfjit`, `dipole_B.Mxfjit/Myfjit/Mzfjit`).
Each is a function of `(kx, ky, m_zee_x, m_zee_y, m_zee_z)`; energies are
real-valued, dipole matrix elements complex-valued. -/
structure SysEval where
  evf : ℝ → ℝ → ℝ → ℝ → ℝ → ℝ
  ecf : ℝ → ℝ → ℝ → ℝ → ℝ → ℝ
  di00x : ℝ → ℝ → ℝ → ℝ → ℝ → ℂ
  di01x : ℝ → ℝ → ℝ → ℝ → ℝ → ℂ
  di11x : ℝ → ℝ → ℝ → ℝ → ℝ → ℂ
  di00y : ℝ → ℝ → ℝ → ℝ → ℝ → ℂ
  di01y : ℝ → ℝ → ℝ → ℝ → ℝ → ℂ
  di11y : ℝ → ℝ → ℝ → ℝ → ℝ → ℂ
  di00mx : ℝ → ℝ → ℝ → ℝ → ℝ → ℂ
  di10mx : ℝ → ℝ → ℝ → ℝ → ℝ → ℂ
  di11mx : ℝ → ℝ → ℝ → ℝ → ℝ → ℂ
  di00my : ℝ → ℝ → ℝ → ℝ → ℝ → ℂ
  di10my : ℝ → ℝ → ℝ → ℝ → ℝ → ℂ
  di11my : ℝ → ℝ → ℝ → ℝ → ℝ → ℂ
  di00mz : ℝ → ℝ → ℝ → ℝ → ℝ → ℂ
  di10mz : ℝ → ℝ → ℝ → ℝ → ℝ → ℂ
  di11mz : ℝ → ℝ → ℝ → ℝ → ℝ → ℂ

/-- `make_electric_field`: Gaussian-enveloped chirped sinusoid. -/
noncomputable def make_electric_field (E0 w alpha chirp phase : ℝ) : ℝ → ℝ :=
  fun t => E0 * Real.exp (-t^2 / (2*alpha)^2)
      * Real.sin (2*Real.pi*w*t*(1 + chirp*t) + phase)

/-- `make_zeeman_field`: the Zeeman field vector `(m_zee_x, m_zee_y, m_zee_z)`. -/
noncomputable def make_zeeman_field (B0 : ℝ) (mu : ℝ × ℝ × ℝ)
    (w alpha chirp phase : ℝ) (E_dir : ℝ × ℝ) (incident_angle : ℝ) :
    ℝ → ℝ × ℝ × ℝ :=
  fun t =>
    let time_dep := Real.exp (-t^2 / (2*alpha)^2)
        * Real.sin (2*Real.pi*w*t*(1 + chirp*t) + phase)
    (mu.1 * B0 * E_dir.2 * Real.cos incident_angle * time_dep,
     mu.2.1 * B0 * E_dir.1 * Real.cos incident_angle * time_dep,
     mu.2.2 * B0 * Real.sin incident_angle * time_dep)

/-- `make_zeeman_field_derivative` (the source computes it without the chirp
contribution; that is preserved here). -/
noncomputable def make_zeeman_field_derivative (B0 : ℝ) (mu : ℝ × ℝ × ℝ)
    (w alpha chirp phase : ℝ) (E_dir : ℝ × ℝ) (incident_angle : ℝ) :
    ℝ → ℝ × ℝ × ℝ :=
  fun t =>
    let time_dep := Real.exp (-t^2 / (2*alpha)^2)
        * (2*Real.pi*w*Real.cos (2*Real.pi*w*t + phase)
           - (2*t)/(2*alpha)^2 * Real.sin (2*Real.pi*w*t + phase))
    (mu.1 * B0 * E_dir.2 * Real.cos incident_angle * time_dep,
     mu.2.1 * B0 * E_dir.1 * Real.cos incident_angle * time_dep,
     mu.2.2 * B0 * Real.sin incident_angle * time_dep)

/-- `flength`, the length-gauge right-hand side.  The global state `y` holds,
for `k < nk`, the components `y (4*k) = f_v`, `y (4*k+1) = p_vc`,
`y (4*k+2) = p_cv`, `y (4*k+3) = f_c`, and `y (4*nk)` is the appended
vector-potential slot.  `kpath k` is the k-th path point. -/
noncomputable def flength (S : SysEval) (eF : ℝ → ℝ) (zF : ℝ → ℝ × ℝ × ℝ)
    (gamma1 gamma2 : ℝ) (E_dir : ℝ × ℝ)
    (t : ℝ) (y : ℕ → ℂ) (kpath : ℕ → ℝ × ℝ) (nk : ℕ) (dk : ℝ)
    (y0 : ℕ → ℂ) : ℕ → ℂ :=
  fun j =>
    let mz := zF t
    let electric_f := eF t
    let D : ℂ := ((electric_f / (2*dk) : ℝ) : ℂ)
    if j = 4*nk then ((-electric_f : ℝ) : ℂ) else
      let k := j / 4
      let i := 4*k
      let m := if k = 0 then 4*(k+1) else if k = nk - 1 then 0 else 4*(k+1)
      let n := if k = 0 then 4*(nk-1) else if k = nk - 1 then 4*(k-1) else 4*(k-1)
      let kx := (kpath k).1
      let ky := (kpath k).2
      let ecv : ℝ := S.ecf kx ky mz.1 mz.2.1 mz.2.2 - S.evf kx ky mz.1 mz.2.1 mz.2.2
      let dipole_in_path : ℂ := (E_dir.1 : ℂ) * S.di01x kx ky mz.1 mz.2.1 mz.2.2
          + (E_dir.2 : ℂ) * S.di01y kx ky mz.1 mz.2.1 mz.2.2
      let A_in_path : ℂ := ((E_dir.1 : ℂ) * S.di00x kx ky mz.1 mz.2.1 mz.2.2
          + (E_dir.2 : ℂ) * S.di00y kx ky mz.1 mz.2.1 mz.2.2)
          - ((E_dir.1 : ℂ) * S.di11x kx ky mz.1 mz.2.1 mz.2.2
          + (E_dir.2 : ℂ) * S.di11y kx ky mz.1 mz.2.1 mz.2.2)
      let wr : ℂ := dipole_in_path * (electric_f : ℂ)
      let wr_d_diag : ℂ := A_in_path * (electric_f : ℂ)
      let pvc : ℂ := (Complex.I * (ecv : ℂ) - (gamma2 : ℂ) + Complex.I * wr_d_diag) * y (i+1)
          - Complex.I * (star wr) * (y i - y (i+3)) + D * (y (m+1) - y (n+1))
      if j % 4 = 0 then
        ((2*(wr * y (i+1)).im : ℝ) : ℂ) + D * (y m - y n) - (gamma1 : ℂ) * (y i - y0 i)
      else if j % 4 = 1 then pvc
      else if j % 4 = 2 then star pvc
      else
        ((-(2*(wr * y (i+1)).im) : ℝ) : ℂ) + D * (y (m+3) - y (n+3))
          - (gamma1 : ℂ) * (y (i+3) - y0 (i+3))

/-- `fvelocity`, the velocity-gauge right-hand side: every evaluator is called
at the path point shifted by `E_dir * k_shift` with
`k_shift = -(y (4*nk)).re` (minus the accumulated vector potential), and no
finite-difference neighbour term appears. -/
noncomputable def fvelocity (S : SysEval) (eF : ℝ → ℝ) (zF : ℝ → ℝ × ℝ × ℝ)
    (gamma1 gamma2 : ℝ) (E_dir : ℝ × ℝ)
    (t : ℝ) (y : ℕ → ℂ) (kpath : ℕ → ℝ × ℝ) (nk : ℕ) (dk : ℝ)
    (y0 : ℕ → ℂ) : ℕ → ℂ :=
  fun j =>
    let mz := zF t
    let electric_f := eF t
    let k_shift : ℝ := -(y (4*nk)).re
    if j = 4*nk then ((-electric_f : ℝ) : ℂ) else
      let k := j / 4
      let i := 4*k
      let kx := (kpath k).1 + E_dir.1 * k_shift
      let ky := (kpath k).2 + E_dir.2 * k_shift
      let ecv : ℝ := S.ecf kx ky mz.1 mz.2.1 mz.2.2 - S.evf kx ky mz.1 mz.2.1 mz.2.2
      let dipole_in_path : ℂ := (E_dir.1 : ℂ) * S.di01x kx ky mz.1 mz.2.1 mz.2.2
          + (E_dir.2 : ℂ) * S.di01y kx ky mz.1 mz.2.1 mz.2.2
      let A_in_path : ℂ := ((E_dir.1 : ℂ) * S.di00x kx ky mz.1 mz.2.1 mz.2.2
          + (E_dir.2 : ℂ) * S.di00y kx ky mz.1 mz.2.1 mz.2.2)
          - ((E_dir.1 : ℂ) * S.di11x kx ky mz.1 mz.2.1 mz.2.2
          + (E_dir.2 : ℂ) * S.di11y kx ky mz.1 mz.2.1 mz.2.2)
      let wr : ℂ := dipole_in_path * (electric_f : ℂ)
      let wr_d_diag : ℂ := A_in_path * (electric_f : ℂ)
      let pvc : ℂ := (Complex.I * (ecv : ℂ) - (gamma2 : ℂ) + Complex.I * wr_d_diag) * y (i+1)
          - Complex.I * (star wr) * (y i - y (i+3))
      if j % 4 = 0 then
        ((2*(wr * y (i+1)).im : ℝ) : ℂ) - (gamma1 : ℂ) * (y i - y0 i)
      else if j % 4 = 1 then pvc
      else if j % 4 = 2 then star pvc
      else
        ((-(2*(wr * y (i+1)).im) : ℝ) : ℂ) - (gamma1 : ℂ) * (y (i+3) - y0 (i+3))

/-- `fvelocity_extra`: the velocity-gauge right-hand side with the additional
magnetic-dipole terms built from the Zeeman-field time derivative. -/
noncomputable def fvelocity_extra (S : SysEval) (eF : ℝ → ℝ)
    (zF zdF : ℝ → ℝ × ℝ × ℝ) (gamma1 gamma2 : ℝ) (E_dir : ℝ × ℝ)
    (t : ℝ) (y : ℕ → ℂ) (kpath : ℕ → ℝ × ℝ) (nk : ℕ) (dk : ℝ)
    (y0 : ℕ → ℂ) : ℕ → ℂ :=
  fun j =>
    let mz := zF t
    let electric_f := eF t
    let k_shift : ℝ := -(y (4*nk)).re
    let mzd := zdF t
    if j = 4*nk then ((-electric_f : ℝ) : ℂ) else
      let k := j / 4
      let i := 4*k
      let kx := (kpath k).1 + E_dir.1 * k_shift
      let ky := (kpath k).2 + E_dir.2 * k_shift
      let ecv : ℝ := S.ecf kx ky mz.1 mz.2.1 mz.2.2 - S.evf kx ky mz.1 mz.2.1 mz.2.2
      let dipole_in_path : ℂ := (E_dir.1 : ℂ) * S.di01x kx ky mz.1 mz.2.1 mz.2.2
          + (E_dir.2 : ℂ) * S.di01y kx ky mz.1 mz.2.1 mz.2.2
      let A_in_path : ℂ := ((E_dir.1 : ℂ) * S.di00x kx ky mz.1 mz.2.1 mz.2.2
          + (E_dir.2 : ℂ) * S.di00y kx ky mz.1 mz.2.1 mz.2.2)
          - ((E_dir.1 : ℂ) * S.di11x kx ky mz.1 mz.2.1 mz.2.2
          + (E_dir.2 : ℂ) * S.di11y kx ky mz.1 mz.2.1 mz.2.2)
      let M_in_path : ℂ := (mzd.1 : ℂ) * S.di10mx kx ky mz.1 mz.2.1 mz.2.2
          + (mzd.2.1 : ℂ) * S.di10my kx ky mz.1 mz.2.1 mz.2.2
          + (mzd.2.2 : ℂ) * S.di10mz kx ky mz.1 mz.2.1 mz.2.2
      let M_diag_in_path : ℂ :=
          (mzd.1 : ℂ) * (S.di00mx kx ky mz.1 mz.2.1 mz.2.2 - S.di11mx kx ky mz.1 mz.2.1 mz.2.2)
          + (mzd.2.1 : ℂ) * (S.di00my kx ky mz.1 mz.2.1 mz.2.2 - S.di11my kx ky mz.1 mz.2.1 mz.2.2)
          + (mzd.2.2 : ℂ) * (S.di00mz kx ky mz.1 mz.2.1 mz.2.2 - S.di11mz kx ky mz.1 mz.2.1 mz.2.2)
      let wr : ℂ := dipole_in_path * (electric_f : ℂ)
      let wr_d_diag : ℂ := A_in_path * (electric_f : ℂ)
      let mr : ℂ := M_in_path
      let mr_d_diag : ℂ := M_diag_in_path
      let pvc : ℂ := (Complex.I * (ecv : ℂ) - (gamma2 : ℂ)
              + Complex.I * (wr_d_diag + mr_d_diag)) * y (i+1)
          - Complex.I * (star wr + star mr) * (y i - y (i+3))
      if j % 4 = 0 then
        ((2*((wr + mr) * y (i+1)).im : ℝ) : ℂ) - (gamma1 : ℂ) * (y i - y0 i)
      else if j % 4 = 1 then pvc
      else if j % 4 = 2 then star pvc
      else
        ((-(2*((wr + mr) * y (i+1)).im) : ℝ) : ℂ) - (gamma1 : ℂ) * (y (i+3) - y0 (i+3))

/-- `make_fnumba`'s gauge dispatch: the returned right-hand side. -/
noncomputable def makeFnumba (g : Gauge) (S : SysEval) (eF : ℝ → ℝ)
    (zF zdF : ℝ → ℝ × ℝ × ℝ) (gamma1 gamma2 : ℝ) (E_dir : ℝ × ℝ) :
    ℝ → (ℕ → ℂ) → (ℕ → ℝ × ℝ) → ℕ → ℝ → (ℕ → ℂ) → ℕ → ℂ :=
  match g with
  | .length => flength S eF zF gamma1 gamma2 E_dir
  | .velocity => fvelocity S eF zF gamma1 gamma2 E_dir
  | .velocity_extra => fvelocity_extra S eF zF zdF gamma1 gamma2 E_dir

/-- `initial_condition`: `[ones, zeros, zeros, distrib]` flattened in Fortran
order, i.e. component `4*k + r` is `(1, 0, 0, distrib k)` for `r = 0,1,2,3`,
with `distrib` the Fermi-Dirac occupation when `temperature > 1e-5` and the
zero array otherwise. -/
noncomputable def initial_condition (e_fermi temperature : ℝ) (e_c : ℕ → ℝ) :
    ℕ → ℂ :=
  fun j =>
    if j % 4 = 0 then 1
    else if j % 4 = 1 then 0
    else if j % 4 = 2 then 0
    else if temperature > 1e-5 then
      ((1 / (Real.exp ((e_c (j/4) - e_fermi) / temperature) + 1) : ℝ) : ℂ)
    else 0

/-- The per-path initial state of `sbe_zeeman_solver`:
`y0 = np.append(initial_condition(...), [0.0])`, so the appended
vector-potential slot `4*nk` starts at exactly zero. -/
noncomputable def solverY0 (e_fermi temperature : ℝ) (nk : ℕ) (e_c : ℕ → ℝ) :
    ℕ → ℂ :=
  fun j => if j = 4*nk then 0 else initial_condition e_fermi temperature e_c j

/-- The discretized flow of a right-hand side from an initial state: explicit
Euler steps of size `h` starting at time `t0`.  This models the solver's
forward propagation of the state. -/
noncomputable def eulerFlow (rhs : ℝ → (ℕ → ℂ) → ℕ → ℂ) (y0 : ℕ → ℂ)
    (t0 h : ℝ) : ℕ → ℕ → ℂ
  | 0 => y0
  | n+1 => fun j =>
      eulerFlow rhs y0 t0 h n j + (h : ℂ) * rhs (t0 + n*h) (eulerFlow rhs y0 t0 h n) j

/-- The field alignment selector of `hex_mesh`. -/
inductive Align
  | M
  | K
deriving DecidableEq

/-- `np.linspace lo hi num` (with endpoints).  For `num = 1` the real
division by `num - 1 = 0` yields `0` in Lean, so the list is `[lo]`, matching
NumPy's behaviour. -/
noncomputable def linspace (lo hi : ℝ) (num : ℕ) : List ℝ :=
  (List.range num).map (fun (i : ℕ) => lo + (i : ℝ) * ((hi - lo) / ((num : ℝ) - 1)))

/-- `is_in_hex`: membership test for the hexagonal Brillouin zone. -/
noncomputable def is_in_hex (p : ℝ × ℝ) (a : ℝ) : Prop :=
  |p.2| ≤ 2*Real.pi/(Real.sqrt 3*a) ∧
    Real.sqrt 3*|p.1| + |p.2| ≤ 4*Real.pi/(Real.sqrt 3*a)

/-- `reflect_point`: translate a point that crossed one of the six hexagon
edges by the corresponding reciprocal-lattice-vector combination. -/
noncomputable def reflect_point (p : ℝ × ℝ) (a : ℝ) (b1 b2 : ℝ × ℝ) : ℝ × ℝ :=
  if p.2 > 2*Real.pi/(Real.sqrt 3*a) then (p.1 - b2.1, p.2 - b2.2)
  else if p.2 < -(2*Real.pi/(Real.sqrt 3*a)) then (p.1 + b2.1, p.2 + b2.2)
  else if Real.sqrt 3*p.1 + p.2 > 4*Real.pi/(Real.sqrt 3*a) then
    (p.1 - (b1.1 + b2.1), p.2 - (b1.2 + b2.2))
  else if -(Real.sqrt 3)*p.1 + p.2 < -(4*Real.pi/(Real.sqrt 3*a)) then
    (p.1 - b1.1, p.2 - b1.2)
  else if Real.sqrt 3*p.1 + p.2 < -(4*Real.pi/(Real.sqrt 3*a)) then
    (p.1 + (b1.1 + b2.1), p.2 + (b1.2 + b2.2))
  else if -(Real.sqrt 3)*p.1 + p.2 > 4*Real.pi/(Real.sqrt 3*a) then
    (p.1 + b1.1, p.2 + b1.2)
  else p

/-- Bounded iteration of `reflect_point`, stopping as soon as the point is
inside the hexagon.  This models the `while (not is_in_hex(...))` loop; the
termination theorems below show that two reflections always suffice for
Monkhorst-Pack starting points, so the bounded and the unbounded loop agree
there. -/
noncomputable def reflectN (a : ℝ) (b1 b2 : ℝ × ℝ) : ℕ → ℝ × ℝ → ℝ × ℝ
  | 0, p => p
  | n+1, p => if is_in_hex p a then p else reflectN a b1 b2 n (reflect_point p a b1 b2)

/-- Modelled from the spec: the reciprocal lattice vector `params.b1` of the
hexagonal lattice with lattice constant `a` (the `params` module is not part
of the sources; the value is fixed by the spec's description of the folding —
each violated edge is translated by the matching reciprocal-lattice
combination — and by the hexagon geometry drawn in `BZ_plot`). -/
noncomputable def b1hex (a : ℝ) : ℝ × ℝ :=
  (2*Real.pi/a, -(2*Real.pi/(Real.sqrt 3*a)))

/-- Modelled from the spec: the reciprocal lattice vector `params.b2`, see
`b1hex`. -/
noncomputable def b2hex (a : ℝ) : ℝ × ℝ :=
  (0, 4*Real.pi/(Real.sqrt 3*a))

/-- `hex_mesh`: the Monkhorst-Pack mesh folded into the hexagonal Brillouin
zone.  Returns `(mesh, paths)`; the mesh collects the same points as the
paths, in the same order. -/
noncomputable def hex_mesh (Nk1 Nk2 : ℕ) (a : ℝ) (b1 b2 : ℝ × ℝ)
    (align : Align) : List (ℝ × ℝ) × List (List (ℝ × ℝ)) :=
  match align with
  | .M =>
    let alpha1 := linspace (-(1/2) + 1/(2*(Nk1 : ℝ))) (1/2 - 1/(2*(Nk1 : ℝ))) Nk1
    let alpha2 := linspace (-(1/2) + 1/(2*(Nk2 : ℝ))) (1/2 - 1/(2*(Nk2 : ℝ))) Nk2
    let paths := alpha2.map (fun a2 => alpha1.map (fun a1 =>
        reflectN a b1 b2 2 (a1*b1.1 + a2*b2.1, a1*b1.2 + a2*b2.2)))
    (paths.flatten, paths)
  | .K =>
    let b_a1 : ℝ × ℝ := (8*Real.pi/(a*3), 0)
    let b_a2 : ℝ × ℝ := (4*Real.pi/(a*3), 4*Real.pi/(a*3)*Real.sqrt 3)
    let alpha1 := linspace (-(1/2) + 1/(2*(Nk1 : ℝ))) (1 - 1/(2*(Nk1 : ℝ))) Nk1
    let alpha2 := linspace 0 (1/2 - 1/(2*(Nk2 : ℝ))) Nk2
    let paths := alpha2.map (fun a2 => alpha1.map (fun a1 =>
        let kpoint : ℝ × ℝ := (a1*b_a1.1 + a2*b_a2.1, a1*b_a1.2 + a2*b_a2.2)
        if is_in_hex kpoint a then kpoint
        else (kpoint.1 - (2*Real.pi/a)*1, kpoint.2 - (2*Real.pi/a)*(1/Real.sqrt 3))))
    (paths.flatten, paths)

/-- The external evaluators consumed by `emission_exact`
(`sys.hderivfjit`, `sys.Uf`, `sys.Uf_h`), per k-point 2x2 complex matrices. -/
structure EmisSys where
  hderivx : ℝ → ℝ → ℝ → ℝ → ℝ → Matrix (Fin 2) (Fin 2) ℂ
  hderivy : ℝ → ℝ → ℝ → ℝ → ℝ → Matrix (Fin 2) (Fin 2) ℂ
  Uf : ℝ → ℝ → ℝ → ℝ → ℝ → Matrix (Fin 2) (Fin 2) ℂ
  Uf_h : ℝ → ℝ → ℝ → ℝ → ℝ → Matrix (Fin 2) (Fin 2) ℂ

/-- One time sample of `emission_exact`: the two running scalars accumulated
over every k-point of every path, exactly as the nested `for` loops with
their three `+=` statements per component do. -/
noncomputable def emisPairAt (E : EmisSys) (paths : List (List (ℝ × ℝ)))
    (tarr : List ℝ) (sol : ℕ → ℕ → ℕ → ℕ → ℂ) (E_dir : ℝ × ℝ) (A : ℕ → ℝ)
    (zF : ℝ → ℝ × ℝ × ℝ) (g : Gauge) (i_time : ℕ) : ℝ × ℝ :=
  let t := tarr.getD i_time 0
  let mz := zF t
  (List.range paths.length).foldl (fun acc i_path =>
    let path := paths.getD i_path []
    (List.range path.length).foldl (fun acc2 i_k =>
      let kp := path.getD i_k (0, 0)
      let kH : ℝ × ℝ := match g with
        | .length => (kp.1 - A i_time * E_dir.1, kp.2 - A i_time * E_dir.2)
        | _ => (kp.1 - 2*A i_time * E_dir.1, kp.2 - 2*A i_time * E_dir.2)
      let kU : ℝ × ℝ := match g with
        | .length => kp
        | _ => (kp.1 - A i_time * E_dir.1, kp.2 - A i_time * E_dir.2)
      let hx := E.hderivx kH.1 kH.2 mz.1 mz.2.1 mz.2.2
      let hy := E.hderivy kH.1 kH.2 mz.1 mz.2.1 mz.2.2
      let hE := (E_dir.1 : ℂ) • hx + (E_dir.2 : ℂ) • hy
      let hO := (E_dir.2 : ℂ) • hx + ((-E_dir.1 : ℝ) : ℂ) • hy
      let U := E.Uf kU.1 kU.2 mz.1 mz.2.1 mz.2.2
      let Uh := E.Uf_h kU.1 kU.2 mz.1 mz.2.1 mz.2.2
      let MP := Uh * (hE * U)
      let MO := Uh * (hO * U)
      (acc2.1 + (MP 0 0).re * (sol i_k i_path i_time 0).re
          + (MP 1 1).re * (sol i_k i_path i_time 3).re
          + 2*((MP 0 1) * sol i_k i_path i_time 2).re,
       acc2.2 + (MO 0 0).re * (sol i_k i_path i_time 0).re
          + (MO 1 1).re * (sol i_k i_path i_time 3).re
          + 2*((MO 0 1) * sol i_k i_path i_time 2).re)) acc) (0, 0)

/-- `emission_exact`: the two emission time series `I_E_dir` and `I_ortho`. -/
noncomputable def emission_exact (E : EmisSys) (paths : List (List (ℝ × ℝ)))
    (tarr : List ℝ) (sol : ℕ → ℕ → ℕ → ℕ → ℂ) (E_dir : ℝ × ℝ) (A : ℕ → ℝ)
    (zF : ℝ → ℝ × ℝ × ℝ) (g : Gauge) : List ℝ × List ℝ :=
  ((List.range tarr.length).map (fun i => (emisPairAt E paths tarr sol E_dir A zF g i).1),
   (List.range tarr.length).map (fun i => (emisPairAt E paths tarr sol E_dir A zF g i).2))

/-- User-visible messages printed by the solver's path loop: the per-path
header (`print('path: ' + ...)`, only with `user_out`), the periodic progress
line inside the time loop, and the unconditional shape print after each path.
The source contains no other print site in the loop; in particular there is
no print tied to solver failure. -/
inductive Msg
  | progress (ti : ℕ)
  | pathNum (n : ℕ)
  | shape (rows cols : ℕ)
deriving DecidableEq

/-- `solver.y[:-1]`: the recorded state sample, excluding the trailing
vector-potential slot. -/
def truncState (nk : ℕ) (y : ℕ → ℂ) : List ℂ :=
  (List.range (4*nk)).map y

/-- The per-path time loop of `sbe_zeeman_solver`
(`while solver.successful() and ti < Nt: ...`), with the stiff integrator
abstracted into a one-step function `integ ti y = (new state, success flag)`
and the output stride as a natural `stride` (`ti % dt_out == 0` in the
source).  `fuel` is `Nt - ti`; the recording of the shared time axis and
`A_field` (first path only) is elided.  Returns
(recorded samples, emitted messages, final state, final `ti`). -/
def pathLoopAux (integ : ℕ → (ℕ → ℂ) → (ℕ → ℂ) × Bool) (stride nk : ℕ)
    (user_out : Bool) :
    ℕ → ℕ → (ℕ → ℂ) → Bool → List (List ℂ) → List Msg →
      List (List ℂ) × List Msg × (ℕ → ℂ) × ℕ
  | 0, ti, y, _, sols, tr => (sols, tr, y, ti)
  | fuel+1, ti, y, succ, sols, tr =>
    if succ then
      let tr1 := if ti % 1000 = 0 ∧ user_out then tr ++ [Msg.progress ti] else tr
      let step := integ ti y
      let sols1 := if ti % stride = 0 then sols ++ [truncState nk step.1] else sols
      pathLoopAux integ stride nk user_out fuel (ti+1) step.1 step.2 sols1 tr1
    else (sols, tr, y, ti)

/-- One path's run: the loop from `ti = 0`, a fresh initial state and an
initially successful solver (scipy's `reset` sets the success flag). -/
def pathLoop (integ : ℕ → (ℕ → ℂ) → (ℕ → ℂ) × Bool) (stride nk : ℕ)
    (user_out : Bool) (Nt : ℕ) (y0 : ℕ → ℂ) :
    List (List ℂ) × List Msg × (ℕ → ℂ) × ℕ :=
  pathLoopAux integ stride nk user_out Nt 0 y0 true [] []

/-- The solver's loop over paths: each path gets its own initial state and
its own (re-initialized) integrator; results are appended in path order, with
the `path: n` header (under `user_out`) and the unconditional
`print(np.shape(path_solution))` after each path. -/
def solveAllPaths (numPaths : ℕ) (y0s : ℕ → ℕ → ℂ)
    (integ : ℕ → ℕ → (ℕ → ℂ) → (ℕ → ℂ) × Bool) (user_out : Bool)
    (Nt stride nk : ℕ) : List (List (List ℂ)) × List Msg :=
  (List.range numPaths).foldl (fun acc p =>
    let tr0 := if user_out then acc.2 ++ [Msg.pathNum (p+1)] else acc.2
    let r := pathLoop (integ p) stride nk user_out Nt (y0s p)
    (acc.1 ++ [r.1], tr0 ++ r.2.1 ++ [Msg.shape r.1.length (4*nk)])) ([], [])

/-- Modelled from the spec: the velocity-gauge right-hand side as described
by the spec's words, parametrized by how many multiples of the (negative)
accumulated vector potential shift each evaluation point: the band energies
are evaluated at the path point shifted by `cE * k_shift` and the dipole
projections (`dipole_in_path`, `A_in_path`) at the path point shifted by
`cD * k_shift`, with `k_shift = -(y (4*nk)).re`.  The claim's reading of the
spec is `cE = 2, cD = 1`; the source `fvelocity` corresponds to
`cE = 1, cD = 1`. -/
noncomputable def fvelocityGen (cE cD : ℝ) (S : SysEval) (eF : ℝ → ℝ)
    (zF : ℝ → ℝ × ℝ × ℝ) (gamma1 gamma2 : ℝ) (E_dir : ℝ × ℝ)
    (t : ℝ) (y : ℕ → ℂ) (kpath : ℕ → ℝ × ℝ) (nk : ℕ) (dk : ℝ)
    (y0 : ℕ → ℂ) : ℕ → ℂ :=
  fun j =>
    let mz := zF t
    let electric_f := eF t
    let k_shift : ℝ := -(y (4*nk)).re
    if j = 4*nk then ((-electric_f : ℝ) : ℂ) else
      let k := j / 4
      let i := 4*k
      let kxE := (kpath k).1 + E_dir.1 * (cE * k_shift)
      let kyE := (kpath k).2 + E_dir.2 * (cE * k_shift)
      let kxD := (kpath k).1 + E_dir.1 * (cD * k_shift)
      let kyD := (kpath k).2 + E_dir.2 * (cD * k_shift)
      let ecv : ℝ := S.ecf kxE kyE mz.1 mz.2.1 mz.2.2 - S.evf kxE kyE mz.1 mz.2.1 mz.2.2
      let dipole_in_path : ℂ := (E_dir.1 : ℂ) * S.di01x kxD kyD mz.1 mz.2.1 mz.2.2
          + (E_dir.2 : ℂ) * S.di01y kxD kyD mz.1 mz.2.1 mz.2.2
      let A_in_path : ℂ := ((E_dir.1 : ℂ) * S.di00x kxD kyD mz.1 mz.2.1 mz.2.2
          + (E_dir.2 : ℂ) * S.di00y kxD kyD mz.1 mz.2.1 mz.2.2)
          - ((E_dir.1 : ℂ) * S.di11x kxD kyD mz.1 mz.2.1 mz.2.2
          + (E_dir.2 : ℂ) * S.di11y kxD kyD mz.1 mz.2.1 mz.2.2)
      let wr : ℂ := dipole_in_path * (electric_f : ℂ)
      let wr_d_diag : ℂ := A_in_path * (electric_f : ℂ)
      let pvc : ℂ := (Complex.I * (ecv : ℂ) - (gamma2 : ℂ) + Complex.I * wr_d_diag) * y (i+1)
          - Complex.I * (star wr) * (y i - y (i+3))
      if j % 4 = 0 then
        ((2*(wr * y (i+1)).im : ℝ) : ℂ) - (gamma1 : ℂ) * (y i - y0 i)
      else if j % 4 = 1 then pvc
      else if j % 4 = 2 then star pvc
      else
        ((-(2*(wr * y (i+1)).im) : ℝ) : ℂ) - (gamma1 : ℂ) * (y (i+3) - y0 (i+3))

/-- Modelled from the spec: the zero-temperature occupation the spec claims
for `initial_condition` — a step function of the conduction energy about the
Fermi energy, occupied below, empty above. -/
noncomputable def stepOccupation (e_fermi e : ℝ) : ℝ :=
  if e < e_fermi then 1 else 0

/-- The hexagon-membership test in scaled coordinates: the physical point is
`scaleMap a (xi, eta) = (sqrt 3 * c * xi, c * eta)` with
`c = 2*pi/(sqrt 3 * a)`, and in these coordinates `is_in_hex` becomes
`|eta| <= 1` and `3*|xi| + |eta| <= 2`, written absolute-value-free. -/
def hexS (q : ℝ × ℝ) : Prop :=
  (-1 ≤ q.2 ∧ q.2 ≤ 1) ∧
    (3*q.1 + q.2 ≤ 2 ∧ 3*q.1 - q.2 ≤ 2 ∧ -(3*q.1) + q.2 ≤ 2 ∧ -(3*q.1) - q.2 ≤ 2)

/-- `reflect_point` in scaled coordinates (`b1 = scaleMap a (1, -1)`,
`b2 = scaleMap a (0, 2)`). -/
noncomputable def reflectS (q : ℝ × ℝ) : ℝ × ℝ :=
  if q.2 > 1 then (q.1, q.2 - 2)
  else if q.2 < -1 then (q.1, q.2 + 2)
  else if 3*q.1 + q.2 > 2 then (q.1 - 1, q.2 - 1)
  else if -(3*q.1) + q.2 < -2 then (q.1 - 1, q.2 + 1)
  else if 3*q.1 + q.2 < -2 then (q.1 + 1, q.2 + 1)
  else if -(3*q.1) + q.2 > 2 then (q.1 + 1, q.2 - 1)
  else q

/-- `reflectN` in scaled coordinates. -/
noncomputable def reflectSN : ℕ → ℝ × ℝ → ℝ × ℝ
  | 0, q => q
  | n+1, q => if hexS q then q else reflectSN n (reflectS q)

/-- The scaling map from scaled to physical coordinates. -/
noncomputable def scaleMap (a : ℝ) (q : ℝ × ℝ) : ℝ × ℝ :=
  (Real.sqrt 3 * (2*Real.pi/(Real.sqrt 3*a)) * q.1,
   (2*Real.pi/(Real.sqrt 3*a)) * q.2)

/-- Modelled from the spec: the eigenbasis-conjugated band-derivative
operator `M` projected along the field direction, at the gauge-consistent
shifted k-point (single vector-potential shift of the derivative point in
length gauge, double in the velocity gauges; the eigenbasis transform point
unshifted in length gauge, single-shifted in the velocity gauges). -/
noncomputable def specMpar (E : EmisSys) (g : Gauge) (E_dir : ℝ × ℝ)
    (mz : ℝ × ℝ × ℝ) (Ai : ℝ) (kp : ℝ × ℝ) : Matrix (Fin 2) (Fin 2) ℂ :=
  let kH : ℝ × ℝ := match g with
    | .length => (kp.1 - Ai * E_dir.1, kp.2 - Ai * E_dir.2)
    | _ => (kp.1 - 2*Ai * E_dir.1, kp.2 - 2*Ai * E_dir.2)
  let kU : ℝ × ℝ := match g with
    | .length => kp
    | _ => (kp.1 - Ai * E_dir.1, kp.2 - Ai * E_dir.2)
  (E.Uf_h kU.1 kU.2 mz.1 mz.2.1 mz.2.2) *
    (((E_dir.1 : ℂ) • E.hderivx kH.1 kH.2 mz.1 mz.2.1 mz.2.2
      + (E_dir.2 : ℂ) • E.hderivy kH.1 kH.2 mz.1 mz.2.1 mz.2.2) *
     (E.Uf kU.1 kU.2 mz.1 mz.2.1 mz.2.2))

/-- Modelled from the spec: the operator `M` projected along the orthogonal
direction `E_ort = (E_dir_y, -E_dir_x)`, see `specMpar`. -/
noncomputable def specMort (E : EmisSys) (g : Gauge) (E_dir : ℝ × ℝ)
    (mz : ℝ × ℝ × ℝ) (Ai : ℝ) (kp : ℝ × ℝ) : Matrix (Fin 2) (Fin 2) ℂ :=
  let kH : ℝ × ℝ := match g with
    | .length => (kp.1 - Ai * E_dir.1, kp.2 - Ai * E_dir.2)
    | _ => (kp.1 - 2*Ai * E_dir.1, kp.2 - 2*Ai * E_dir.2)
  let kU : ℝ × ℝ := match g with
    | .length => kp
    | _ => (kp.1 - Ai * E_dir.1, kp.2 - Ai * E_dir.2)
  (E.Uf_h kU.1 kU.2 mz.1 mz.2.1 mz.2.2) *
    (((E_dir.2 : ℂ) • E.hderivx kH.1 kH.2 mz.1 mz.2.1 mz.2.2
      + ((-E_dir.1 : ℝ) : ℂ) • E.hderivy kH.1 kH.2 mz.1 mz.2.1 mz.2.2) *
     (E.Uf kU.1 kU.2 mz.1 mz.2.1 mz.2.2))

/-- Concrete emission evaluators for witnesses: every evaluator returns the
identity matrix. -/
noncomputable def emisSysOne : EmisSys where
  hderivx := fun _ _ _ _ _ => 1
  hderivy := fun _ _ _ _ _ => 1
  Uf := fun _ _ _ _ _ => 1
  Uf_h := fun _ _ _ _ _ => 1

/-- Concrete evaluators for counterexamples: the conduction band energy
returns `kx`, every other evaluator vanishes. -/
noncomputable def sysEvalKx : SysEval where
  evf := fun _ _ _ _ _ => 0
  ecf := fun kx _ _ _ _ => kx
  di00x := fun _ _ _ _ _ => 0
  di01x := fun _ _ _ _ _ => 0
  di11x := fun _ _ _ _ _ => 0
  di00y := fun _ _ _ _ _ => 0
  di01y := fun _ _ _ _ _ => 0
  di11y := fun _ _ _ _ _ => 0
  di00mx := fun _ _ _ _ _ => 0
  di10mx := fun _ _ _ _ _ => 0
  di11mx := fun _ _ _ _ _ => 0
  di00my := fun _ _ _ _ _ => 0
  di10my := fun _ _ _ _ _ => 0
  di11my := fun _ _ _ _ _ => 0
  di00mz := fun _ _ _ _ _ => 0
  di10mz := fun _ _ _ _ _ => 0
  di11mz := fun _ _ _ _ _ => 0

/-- Concrete one-k-point state for the C2 counterexample: `p_vc = 1` and an
accumulated vector potential `A = y 4 = 1`. -/
noncomputable def yStateC2 : ℕ → ℂ :=
  fun j => if j = 1 then 1 else if j = 4 then 1 else 0

/-- Concrete abstract integrator that keeps the state unchanged and succeeds
at steps `0` and `1` but reports failure at step `2`. -/
def integFailC9 : ℕ → ℕ → (ℕ → ℂ) → (ℕ → ℂ) × Bool :=
  fun _ i y => (y, decide (i < 2))

/-- Concrete abstract integrator that keeps the state unchanged and always
succeeds. -/
def integOkC9 : ℕ → ℕ → (ℕ → ℂ) → (ℕ → ℂ) × Bool :=
  fun _ _ y => (y, true)

/-! ### Helper lemmas on state-vector indexing -/

theorem mod4_1 (k : ℕ) : (4*k+1) % 4 = 1 := by omega

theorem mod4_2 (k : ℕ) : (4*k+2) % 4 = 2 := by omega

theorem mod4_3 (k : ℕ) : (4*k+3) % 4 = 3 := by omega

theorem mod4_0 (k : ℕ) : (4*k) % 4 = 0 := by omega

theorem div4_0 (k : ℕ) : (4*k) / 4 = k := by omega

theorem div4_1 (k : ℕ) : (4*k+1) / 4 = k := by omega

theorem div4_2 (k : ℕ) : (4*k+2) / 4 = k := by omega

theorem div4_3 (k : ℕ) : (4*k+3) / 4 = k := by omega

theorem ne_slot_1 (k nk : ℕ) : ¬(4*k+1 = 4*nk) := by omega

theorem ne_slot_2 (k nk : ℕ) : ¬(4*k+2 = 4*nk) := by omega

theorem ne_slot_3 (k nk : ℕ) : ¬(4*k+3 = 4*nk) := by omega

/-- In every gauge, the right-hand side sets the derivative of the third
state component of each k-point to the conjugate of the second. -/
theorem makeF_conj (g : Gauge) (S : SysEval) (eF : ℝ → ℝ)
    (zF zdF : ℝ → ℝ × ℝ × ℝ) (gamma1 gamma2 : ℝ) (E_dir : ℝ × ℝ) (t : ℝ)
    (y : ℕ → ℂ) (kpath : ℕ → ℝ × ℝ) (nk : ℕ) (dk : ℝ) (y0 : ℕ → ℂ) (k : ℕ) :
    makeFnumba g S eF zF zdF gamma1 gamma2 E_dir t y kpath nk dk y0 (4*k+2)
      = star (makeFnumba g S eF zF zdF gamma1 gamma2 E_dir t y kpath nk dk y0 (4*k+1)) := by
  cases g <;>
    simp [makeFnumba, flength, fvelocity, fvelocity_extra,
      mod4_1 k, mod4_2 k, div4_1 k, div4_2 k, ne_slot_1 k nk, ne_slot_2 k nk]

/-- The initial coherences of `solverY0` vanish. -/
theorem solverY0_coherences_zero (e_fermi temperature : ℝ) (nk : ℕ)
    (e_c : ℕ → ℝ) (k : ℕ) :
    solverY0 e_fermi temperature nk e_c (4*k+1) = 0 ∧
      solverY0 e_fermi temperature nk e_c (4*k+2) = 0 := by
  constructor <;>
    simp [solverY0, initial_condition, mod4_1 k, mod4_2 k,
      ne_slot_1 k nk, ne_slot_2 k nk]

/-- The discretized flow from the solver's initial state keeps the third
component of each k-point the conjugate of the second, in every gauge. -/
theorem eulerFlow_conj (g : Gauge) (S : SysEval) (eF : ℝ → ℝ)
    (zF zdF : ℝ → ℝ × ℝ × ℝ) (gamma1 gamma2 : ℝ) (E_dir : ℝ × ℝ)
    (kpath : ℕ → ℝ × ℝ) (nk : ℕ) (dk : ℝ) (e_fermi temperature : ℝ)
    (e_c : ℕ → ℝ) (t0 h : ℝ) (n k : ℕ) :
    eulerFlow (fun s z => makeFnumba g S eF zF zdF gamma1 gamma2 E_dir s z
        kpath nk dk (solverY0 e_fermi temperature nk e_c))
        (solverY0 e_fermi temperature nk e_c) t0 h n (4*k+2)
      = star (eulerFlow (fun s z => makeFnumba g S eF zF zdF gamma1 gamma2 E_dir s z
        kpath nk dk (solverY0 e_fermi temperature nk e_c))
        (solverY0 e_fermi temperature nk e_c) t0 h n (4*k+1)) := by
  induction n with
  | zero =>
    simp only [eulerFlow]
    rw [(solverY0_coherences_zero e_fermi temperature nk e_c k).1,
      (solverY0_coherences_zero e_fermi temperature nk e_c k).2]
    simp
  | succ n ih =>
    simp only [eulerFlow]
    rw [ih, makeF_conj]
    rw [star_add, star_mul']
    simp [Complex.star_def, Complex.conj_ofReal]

/-- C1: for every gauge variant and every k-point index `k`, the right-hand
side sets the derivative of the third state component to the conjugate of the
derivative of the second (`x[4k+2] = conj(x[4k+1])`), the initial condition
sets both coherence components to zero, and along the (discretized) flow from
the initial condition `p_cv = conj(p_vc)` holds at every k-point at all
times. -/
theorem C1_coherence_conjugate (g : Gauge) (S : SysEval) (eF : ℝ → ℝ)
    (zF zdF : ℝ → ℝ × ℝ × ℝ) (gamma1 gamma2 : ℝ) (E_dir : ℝ × ℝ) (t : ℝ)
    (y : ℕ → ℂ) (kpath : ℕ → ℝ × ℝ) (nk : ℕ) (dk : ℝ) (y0 : ℕ → ℂ)
    (e_fermi temperature : ℝ) (e_c : ℕ → ℝ) (t0 h : ℝ) (n k : ℕ) :
    makeFnumba g S eF zF zdF gamma1 gamma2 E_dir t y kpath nk dk y0 (4*k+2)
      = star (makeFnumba g S eF zF zdF gamma1 gamma2 E_dir t y kpath nk dk y0 (4*k+1))
    ∧ solverY0 e_fermi temperature nk e_c (4*k+1) = 0
    ∧ solverY0 e_fermi temperature nk e_c (4*k+2) = 0
    ∧ eulerFlow (fun s z => makeFnumba g S eF zF zdF gamma1 gamma2 E_dir s z
          kpath nk dk (solverY0 e_fermi temperature nk e_c))
          (solverY0 e_fermi temperature nk e_c) t0 h n (4*k+2)
        = star (eulerFlow (fun s z => makeFnumba g S eF zF zdF gamma1 gamma2 E_dir s z
          kpath nk dk (solverY0 e_fermi temperature nk e_c))
          (solverY0 e_fermi temperature nk e_c) t0 h n (4*k+1)) :=
  ⟨makeF_conj g S eF zF zdF gamma1 gamma2 E_dir t y kpath nk dk y0 k,
   (solverY0_coherences_zero e_fermi temperature nk e_c k).1,
   (solverY0_coherences_zero e_fermi temperature nk e_c k).2,
   eulerFlow_conj g S eF zF zdF gamma1 gamma2 E_dir kpath nk dk
     e_fermi temperature e_c t0 h n k⟩

/-- C10: in every gauge the integrated global state carries one extra final
scalar slot at index `4*nk`: it starts at exactly `0`, every right-hand side
sets its derivative to `-E(t)`, and the recorded per-path sample
(`solver.y[:-1]`) consists exactly of the `4*nk` leading components, excluding
that scalar. -/
theorem C10_vector_potential_slot (g : Gauge) (S : SysEval) (eF : ℝ → ℝ)
    (zF zdF : ℝ → ℝ × ℝ × ℝ) (gamma1 gamma2 : ℝ) (E_dir : ℝ × ℝ) (t : ℝ)
    (y : ℕ → ℂ) (kpath : ℕ → ℝ × ℝ) (nk : ℕ) (dk : ℝ) (y0 : ℕ → ℂ)
    (e_fermi temperature : ℝ) (e_c : ℕ → ℝ) (j : Fin (4*nk)) :
    makeFnumba g S eF zF zdF gamma1 gamma2 E_dir t y kpath nk dk y0 (4*nk)
      = ((-(eF t) : ℝ) : ℂ)
    ∧ solverY0 e_fermi temperature nk e_c (4*nk) = 0
    ∧ (truncState nk y).length = 4*nk
    ∧ (truncState nk y).getD j.val 0 = y j.val := by
  refine ⟨?_, ?_, ?_, ?_⟩
  · cases g <;> simp [makeFnumba, flength, fvelocity, fvelocity_extra]
  · simp [solverY0]
  · simp [truncState]
  · have hj := j.isLt
    simp [truncState, List.getD_eq_getElem?_getD, List.getElem?_map, hj]

/-- With amplitude `E0 = 0` the driving field vanishes identically. -/
theorem electric_field_zero_amp (w alpha chirp phase t : ℝ) :
    make_electric_field 0 w alpha chirp phase t = 0 := by
  simp [make_electric_field]

/-- With amplitude `B0 = 0` the Zeeman-field derivative vanishes identically. -/
theorem zeeman_derivative_zero_amp (mu : ℝ × ℝ × ℝ) (w alpha chirp phase : ℝ)
    (E_dir : ℝ × ℝ) (incident_angle t : ℝ) :
    make_zeeman_field_derivative 0 mu w alpha chirp phase E_dir incident_angle t
      = (0, 0, 0) := by
  simp [make_zeeman_field_derivative]

/-- With `gamma1 = 0`, `E0 = 0` and `B0 = 0` the derivatives of the first and
fourth components of each k-point sum to zero, in every gauge. -/
theorem makeF_zero_field_sum (g : Gauge) (S : SysEval) (mu : ℝ × ℝ × ℝ)
    (w alpha chirp phase : ℝ) (E_dir : ℝ × ℝ) (incident_angle : ℝ)
    (gamma2 : ℝ) (t : ℝ) (y : ℕ → ℂ) (kpath : ℕ → ℝ × ℝ) (nk : ℕ) (dk : ℝ)
    (y0 : ℕ → ℂ) (k : ℕ) :
    makeFnumba g S (make_electric_field 0 w alpha chirp phase)
        (make_zeeman_field 0 mu w alpha chirp phase E_dir incident_angle)
        (make_zeeman_field_derivative 0 mu w alpha chirp phase E_dir incident_angle)
        0 gamma2 E_dir t y kpath nk dk y0 (4*k)
      + makeFnumba g S (make_electric_field 0 w alpha chirp phase)
        (make_zeeman_field 0 mu w alpha chirp phase E_dir incident_angle)
        (make_zeeman_field_derivative 0 mu w alpha chirp phase E_dir incident_angle)
        0 gamma2 E_dir t y kpath nk dk y0 (4*k+3) = 0 := by
  have heF : ∀ s, make_electric_field 0 w alpha chirp phase s = 0 :=
    electric_field_zero_amp w alpha chirp phase
  have hzd : ∀ s, make_zeeman_field_derivative 0 mu w alpha chirp phase E_dir incident_angle s
      = (0, 0, 0) :=
    zeeman_derivative_zero_amp mu w alpha chirp phase E_dir incident_angle
  by_cases hk : k = nk
  · subst hk
    cases g <;>
      simp [makeFnumba, flength, fvelocity, fvelocity_extra, heF, hzd,
        mod4_3 k, div4_3 k, ne_slot_3 k k]
  · have h0 : ¬(4*k = 4*nk) := by omega
    cases g <;>
      simp [makeFnumba, flength, fvelocity, fvelocity_extra, heF, hzd, h0,
        mod4_0 k, mod4_3 k, div4_0 k, div4_3 k, ne_slot_3 k nk]

/-- With `gamma1 = 0`, `E0 = 0` and `B0 = 0` the discretized flow conserves
`f_v + f_e` at every k-point, in every gauge. -/
theorem eulerFlow_zero_field_sum (g : Gauge) (S : SysEval) (mu : ℝ × ℝ × ℝ)
    (w alpha chirp phase : ℝ) (E_dir : ℝ × ℝ) (incident_angle : ℝ)
    (gamma2 : ℝ) (kpath : ℕ → ℝ × ℝ) (nk : ℕ) (dk : ℝ) (y0 ystart : ℕ → ℂ)
    (t0 h : ℝ) (n k : ℕ) :
    eulerFlow (fun s z => makeFnumba g S (make_electric_field 0 w alpha chirp phase)
        (make_zeeman_field 0 mu w alpha chirp phase E_dir incident_angle)
        (make_zeeman_field_derivative 0 mu w alpha chirp phase E_dir incident_angle)
        0 gamma2 E_dir s z kpath nk dk y0) ystart t0 h n (4*k)
      + eulerFlow (fun s z => makeFnumba g S (make_electric_field 0 w alpha chirp phase)
        (make_zeeman_field 0 mu w alpha chirp phase E_dir incident_angle)
        (make_zeeman_field_derivative 0 mu w alpha chirp phase E_dir incident_angle)
        0 gamma2 E_dir s z kpath nk dk y0) ystart t0 h n (4*k+3)
      = ystart (4*k) + ystart (4*k+3) := by
  induction n with
  | zero => simp [eulerFlow]
  | succ n ih =>
    simp only [eulerFlow]
    have hsum := makeF_zero_field_sum g S mu w alpha chirp phase E_dir
      incident_angle gamma2 (t0 + n*h)
      (eulerFlow (fun s z => makeFnumba g S (make_electric_field 0 w alpha chirp phase)
        (make_zeeman_field 0 mu w alpha chirp phase E_dir incident_angle)
        (make_zeeman_field_derivative 0 mu w alpha chirp phase E_dir incident_angle)
        0 gamma2 E_dir s z kpath nk dk y0) ystart t0 h n) kpath nk dk y0 k
    calc _ = (eulerFlow _ ystart t0 h n (4*k) + eulerFlow _ ystart t0 h n (4*k+3))
          + (h : ℂ) * (makeFnumba g S _ _ _ 0 gamma2 E_dir (t0 + n*h) _ kpath nk dk y0 (4*k)
            + makeFnumba g S _ _ _ 0 gamma2 E_dir (t0 + n*h) _ kpath nk dk y0 (4*k+3)) := by
            ring
      _ = ystart (4*k) + ystart (4*k+3) := by rw [hsum, ih]; ring

/-- C8: with zero damping (`gamma1 = 0`) and identically zero electric and
Zeeman fields (`E0 = 0`, `B0 = 0`), for every gauge variant, every state and
every k-point, the right-hand-side derivatives of the first and fourth
components sum to zero, so `f_v + f_e` is constant along the (discretized)
flow for every k-point. -/
theorem C8_occupation_conservation (g : Gauge) (S : SysEval) (mu : ℝ × ℝ × ℝ)
    (w alpha chirp phase : ℝ) (E_dir : ℝ × ℝ) (incident_angle : ℝ)
    (gamma2 : ℝ) (t : ℝ) (y : ℕ → ℂ) (kpath : ℕ → ℝ × ℝ) (nk : ℕ) (dk : ℝ)
    (y0 ystart : ℕ → ℂ) (t0 h : ℝ) (n k : ℕ) :
    makeFnumba g S (make_electric_field 0 w alpha chirp phase)
        (make_zeeman_field 0 mu w alpha chirp phase E_dir incident_angle)
        (make_zeeman_field_derivative 0 mu w alpha chirp phase E_dir incident_angle)
        0 gamma2 E_dir t y kpath nk dk y0 (4*k)
      + makeFnumba g S (make_electric_field 0 w alpha chirp phase)
        (make_zeeman_field 0 mu w alpha chirp phase E_dir incident_angle)
        (make_zeeman_field_derivative 0 mu w alpha chirp phase E_dir incident_angle)
        0 gamma2 E_dir t y kpath nk dk y0 (4*k+3) = 0
    ∧ eulerFlow (fun s z => makeFnumba g S (make_electric_field 0 w alpha chirp phase)
        (make_zeeman_field 0 mu w alpha chirp phase E_dir incident_angle)
        (make_zeeman_field_derivative 0 mu w alpha chirp phase E_dir incident_angle)
        0 gamma2 E_dir s z kpath nk dk y0) ystart t0 h n (4*k)
      + eulerFlow (fun s z => makeFnumba g S (make_electric_field 0 w alpha chirp phase)
        (make_zeeman_field 0 mu w alpha chirp phase E_dir incident_angle)
        (make_zeeman_field_derivative 0 mu w alpha chirp phase E_dir incident_angle)
        0 gamma2 E_dir s z kpath nk dk y0) ystart t0 h n (4*k+3)
      = ystart (4*k) + ystart (4*k+3) :=
  ⟨makeF_zero_field_sum g S mu w alpha chirp phase E_dir incident_angle
      gamma2 t y kpath nk dk y0 k,
   eulerFlow_zero_field_sum g S mu w alpha chirp phase E_dir incident_angle
      gamma2 kpath nk dk y0 ystart t0 h n k⟩

/-- With all magnetic coupling strengths zero the Zeeman-field derivative
vanishes identically. -/
theorem zeeman_derivative_zero_mu (B0 w alpha chirp phase : ℝ) (E_dir : ℝ × ℝ)
    (incident_angle t : ℝ) :
    make_zeeman_field_derivative B0 (0, 0, 0) w alpha chirp phase E_dir incident_angle t
      = (0, 0, 0) := by
  simp [make_zeeman_field_derivative]

/-- With `mu = (0,0,0)` the `velocity_extra` right-hand side coincides with
the `velocity` right-hand side at every component. -/
theorem fvelocity_extra_zero_mu (S : SysEval) (eF : ℝ → ℝ)
    (B0 w alpha chirp phase incident_angle : ℝ) (gamma1 gamma2 : ℝ)
    (E_dir : ℝ × ℝ) (t : ℝ) (y : ℕ → ℂ) (kpath : ℕ → ℝ × ℝ) (nk : ℕ)
    (dk : ℝ) (y0 : ℕ → ℂ) (j : ℕ) :
    fvelocity_extra S eF
        (make_zeeman_field B0 (0, 0, 0) w alpha chirp phase E_dir incident_angle)
        (make_zeeman_field_derivative B0 (0, 0, 0) w alpha chirp phase E_dir incident_angle)
        gamma1 gamma2 E_dir t y kpath nk dk y0 j
      = fvelocity S eF
        (make_zeeman_field B0 (0, 0, 0) w alpha chirp phase E_dir incident_angle)
        gamma1 gamma2 E_dir t y kpath nk dk y0 j := by
  have hz := zeeman_derivative_zero_mu B0 w alpha chirp phase E_dir incident_angle t
  simp only [fvelocity_extra, fvelocity, hz]
  split_ifs <;> simp

/-- Discretized flows of pointwise-equal right-hand sides agree. -/
theorem eulerFlow_congr (rhs1 rhs2 : ℝ → (ℕ → ℂ) → ℕ → ℂ)
    (h : ∀ s z, rhs1 s z = rhs2 s z) (y0 : ℕ → ℂ) (t0 hstep : ℝ) (n : ℕ) :
    eulerFlow rhs1 y0 t0 hstep n = eulerFlow rhs2 y0 t0 hstep n := by
  induction n with
  | zero => rfl
  | succ n ih => funext j; simp only [eulerFlow, ih, h]

/-- C7: with `mu_x = mu_y = mu_z = 0` the `velocity_extra` right-hand side
equals the `velocity` right-hand side for every time, state, path and spacing
argument, the (discretized) integration of both gauges from the same initial
state yields identical solutions, and `emission_exact` treats the two gauges
identically, so the emission series coincide. -/
theorem C7_gauge_equivalence (S : SysEval) (eF : ℝ → ℝ)
    (B0 w alpha chirp phase incident_angle : ℝ) (gamma1 gamma2 : ℝ)
    (E_dir : ℝ × ℝ) (t : ℝ) (y : ℕ → ℂ) (kpath : ℕ → ℝ × ℝ) (nk : ℕ)
    (dk : ℝ) (y0 ystart : ℕ → ℂ) (t0 h : ℝ) (n j : ℕ) (E : EmisSys)
    (paths : List (List (ℝ × ℝ))) (tarr : List ℝ)
    (sol : ℕ → ℕ → ℕ → ℕ → ℂ) (A : ℕ → ℝ) :
    fvelocity_extra S eF
        (make_zeeman_field B0 (0, 0, 0) w alpha chirp phase E_dir incident_angle)
        (make_zeeman_field_derivative B0 (0, 0, 0) w alpha chirp phase E_dir incident_angle)
        gamma1 gamma2 E_dir t y kpath nk dk y0 j
      = fvelocity S eF
        (make_zeeman_field B0 (0, 0, 0) w alpha chirp phase E_dir incident_angle)
        gamma1 gamma2 E_dir t y kpath nk dk y0 j
    ∧ eulerFlow (fun s z => fvelocity_extra S eF
        (make_zeeman_field B0 (0, 0, 0) w alpha chirp phase E_dir incident_angle)
        (make_zeeman_field_derivative B0 (0, 0, 0) w alpha chirp phase E_dir incident_angle)
        gamma1 gamma2 E_dir s z kpath nk dk y0) ystart t0 h n
      = eulerFlow (fun s z => fvelocity S eF
        (make_zeeman_field B0 (0, 0, 0) w alpha chirp phase E_dir incident_angle)
        gamma1 gamma2 E_dir s z kpath nk dk y0) ystart t0 h n
    ∧ emission_exact E paths tarr sol E_dir A
        (make_zeeman_field B0 (0, 0, 0) w alpha chirp phase E_dir incident_angle)
        Gauge.velocity_extra
      = emission_exact E paths tarr sol E_dir A
        (make_zeeman_field B0 (0, 0, 0) w alpha chirp phase E_dir incident_angle)
        Gauge.velocity := by
  refine ⟨fvelocity_extra_zero_mu S eF B0 w alpha chirp phase incident_angle
      gamma1 gamma2 E_dir t y kpath nk dk y0 j, ?_, ?_⟩
  · exact eulerFlow_congr _ _
      (fun s z => funext fun i => fvelocity_extra_zero_mu S eF B0 w alpha chirp
        phase incident_angle gamma1 gamma2 E_dir s z kpath nk dk y0 i)
      ystart t0 h n
  · rfl

/-- The source `fvelocity` is the single-shift instance `cE = cD = 1` of the
spec-parametrized velocity right-hand side: all evaluation points are the
path point shifted by exactly one (negative) accumulated vector potential. -/
theorem fvelocity_eq_gen11 (S : SysEval) (eF : ℝ → ℝ) (zF : ℝ → ℝ × ℝ × ℝ)
    (gamma1 gamma2 : ℝ) (E_dir : ℝ × ℝ) (t : ℝ) (y : ℕ → ℂ)
    (kpath : ℕ → ℝ × ℝ) (nk : ℕ) (dk : ℝ) (y0 : ℕ → ℂ) (j : ℕ) :
    fvelocity S eF zF gamma1 gamma2 E_dir t y kpath nk dk y0 j
      = fvelocityGen 1 1 S eF zF gamma1 gamma2 E_dir t y kpath nk dk y0 j := by
  simp only [fvelocity, fvelocityGen, one_mul]

/-- `fvelocity` has no finite-difference neighbour coupling: the derivative
of the components of k-point `k` depends on the state only through that
k-point's own components and the vector-potential slot. -/
theorem fvelocity_local (S : SysEval) (eF : ℝ → ℝ) (zF : ℝ → ℝ × ℝ × ℝ)
    (gamma1 gamma2 : ℝ) (E_dir : ℝ × ℝ) (t : ℝ) (y y' : ℕ → ℂ)
    (kpath : ℕ → ℝ × ℝ) (nk : ℕ) (dk : ℝ) (y0 : ℕ → ℂ) (k : ℕ) (r : Fin 4)
    (h0 : y (4*k) = y' (4*k)) (h1 : y (4*k+1) = y' (4*k+1))
    (h3 : y (4*k+3) = y' (4*k+3)) (hA : y (4*nk) = y' (4*nk)) :
    fvelocity S eF zF gamma1 gamma2 E_dir t y kpath nk dk y0 (4*k + r.val)
      = fvelocity S eF zF gamma1 gamma2 E_dir t y' kpath nk dk y0 (4*k + r.val) := by
  fin_cases r
  · by_cases hk : 4*k = 4*nk
    · simp [fvelocity, hk, hA]
    · simp [fvelocity, hk, hA, h0, h1, h3, mod4_0 k, div4_0 k]
  · simp [fvelocity, hA, h0, h1, h3, mod4_1 k, div4_1 k, ne_slot_1 k nk]
  · simp [fvelocity, hA, h0, h1, h3, mod4_2 k, div4_2 k, ne_slot_2 k nk]
  · simp [fvelocity, hA, h0, h1, h3, mod4_3 k, div4_3 k, ne_slot_3 k nk]

/-- C2 counterexample: at a concrete one-k-point instance with accumulated
vector potential `A = 1`, the source `fvelocity` (which evaluates the band
energies at the path point shifted by one vector potential) differs from the
spec's description (energies and dipole matrix elements at the point shifted
by twice the vector potential, dipole projections at one): the claimed
double-shift right-hand side `fvelocityGen 2 1` disagrees with `fvelocity`
on the coherence derivative. -/
theorem C2_counterexample :
    fvelocity sysEvalKx (fun _ => 0) (fun _ => (0, 0, 0)) 0 0 (1, 0) 0
        yStateC2 (fun _ => (0, 0)) 1 1 (fun _ => 0) 1
      ≠ fvelocityGen 2 1 sysEvalKx (fun _ => 0) (fun _ => (0, 0, 0)) 0 0 (1, 0) 0
        yStateC2 (fun _ => (0, 0)) 1 1 (fun _ => 0) 1 := by
  have h1 : (1 : ℕ) % 4 = 1 := by norm_num
  have h2 : (1 : ℕ) / 4 = 0 := by norm_num
  simp only [fvelocity, fvelocityGen, sysEvalKx, yStateC2, h1, h2]
  norm_num [Complex.ext_iff]

/-- C2 (amended): in the velocity-gauge right-hand side `fvelocity`, the band
energies and the dipole matrix elements entering the dipole projections are
all evaluated at the path point shifted by exactly one (negative) accumulated
vector potential (`fvelocityGen 1 1`), the vector-potential slot integrates
`dA/dt = -E(t)`, and no finite-difference neighbour-coupling term appears:
each k-point's derivatives depend on the state only through that k-point's
own components and the vector-potential slot. -/
theorem C2_velocity_shift_amended (S : SysEval) (eF : ℝ → ℝ)
    (zF : ℝ → ℝ × ℝ × ℝ) (gamma1 gamma2 : ℝ) (E_dir : ℝ × ℝ) (t : ℝ)
    (y y' : ℕ → ℂ) (kpath : ℕ → ℝ × ℝ) (nk : ℕ) (dk : ℝ) (y0 : ℕ → ℂ)
    (k : ℕ) (r : Fin 4)
    (h0 : y (4*k) = y' (4*k)) (h1 : y (4*k+1) = y' (4*k+1))
    (h3 : y (4*k+3) = y' (4*k+3)) (hA : y (4*nk) = y' (4*nk)) :
    (∀ i, fvelocity S eF zF gamma1 gamma2 E_dir t y kpath nk dk y0 i
        = fvelocityGen 1 1 S eF zF gamma1 gamma2 E_dir t y kpath nk dk y0 i)
    ∧ fvelocity S eF zF gamma1 gamma2 E_dir t y kpath nk dk y0 (4*nk)
        = ((-(eF t) : ℝ) : ℂ)
    ∧ fvelocity S eF zF gamma1 gamma2 E_dir t y kpath nk dk y0 (4*k + r.val)
        = fvelocity S eF zF gamma1 gamma2 E_dir t y' kpath nk dk y0 (4*k + r.val) := by
  refine ⟨fun i => fvelocity_eq_gen11 S eF zF gamma1 gamma2 E_dir t y kpath nk dk y0 i,
    ?_,
    fvelocity_local S eF zF gamma1 gamma2 E_dir t y y' kpath nk dk y0 k r h0 h1 h3 hA⟩
  simp [fvelocity]

/-- Witness for the amended C2 at a concrete instance. -/
theorem C2_velocity_shift_amended_witness :
    (∀ i, fvelocity sysEvalKx (fun _ => 0) (fun _ => (0, 0, 0)) 0 0 (1, 0) 0
        yStateC2 (fun _ => (0, 0)) 1 1 (fun _ => 0) i
        = fvelocityGen 1 1 sysEvalKx (fun _ => 0) (fun _ => (0, 0, 0)) 0 0 (1, 0) 0
        yStateC2 (fun _ => (0, 0)) 1 1 (fun _ => 0) i)
    ∧ fvelocity sysEvalKx (fun _ => 0) (fun _ => (0, 0, 0)) 0 0 (1, 0) 0
        yStateC2 (fun _ => (0, 0)) 1 1 (fun _ => 0) (4*1)
        = ((-((fun (_ : ℝ) => (0:ℝ)) 0) : ℝ) : ℂ)
    ∧ fvelocity sysEvalKx (fun _ => 0) (fun _ => (0, 0, 0)) 0 0 (1, 0) 0
        yStateC2 (fun _ => (0, 0)) 1 1 (fun _ => 0) (4*0 + (0 : Fin 4).val)
        = fvelocity sysEvalKx (fun _ => 0) (fun _ => (0, 0, 0)) 0 0 (1, 0) 0
        yStateC2 (fun _ => (0, 0)) 1 1 (fun _ => 0) (4*0 + (0 : Fin 4).val) :=
  C2_velocity_shift_amended sysEvalKx (fun _ => 0) (fun _ => (0, 0, 0)) 0 0 (1, 0) 0
    yStateC2 yStateC2 (fun _ => (0, 0)) 1 1 (fun _ => 0) 0 0 rfl rfl rfl rfl

/-- C3 counterexample: at zero temperature with a conduction energy strictly
below the Fermi energy, `initial_condition` returns occupation `0`, not the
step-function value `1` the claim describes. -/
theorem C3_counterexample :
    initial_condition 0 0 (fun _ => -1) 3
      ≠ ((stepOccupation 0 ((fun _ => (-1 : ℝ)) 0) : ℝ) : ℂ) := by
  norm_num [initial_condition, stepOccupation]

/-- C3 (amended): `initial_condition` returns, for every k-point, zero
coherences, and a conduction-band occupation equal to the Fermi-Dirac value
`1/(exp((e_c - e_fermi)/temperature) + 1)` when `temperature > 1e-5` and
identically zero (not a step function) when `temperature ≤ 1e-5`; the
appended vector-potential scalar starts at zero. -/
theorem C3_initial_condition (e_fermi temperature : ℝ) (nk : ℕ)
    (e_c : ℕ → ℝ) (k : ℕ) :
    initial_condition e_fermi temperature e_c (4*k+1) = 0
    ∧ initial_condition e_fermi temperature e_c (4*k+2) = 0
    ∧ (temperature > 1e-5 →
        initial_condition e_fermi temperature e_c (4*k+3)
          = ((1 / (Real.exp ((e_c k - e_fermi) / temperature) + 1) : ℝ) : ℂ))
    ∧ (¬(temperature > 1e-5) →
        initial_condition e_fermi temperature e_c (4*k+3) = 0)
    ∧ solverY0 e_fermi temperature nk e_c (4*nk) = 0 := by
  refine ⟨?_, ?_, fun h => ?_, fun h => ?_, ?_⟩
  · simp [initial_condition, mod4_1 k]
  · simp [initial_condition, mod4_2 k]
  · simp [initial_condition, mod4_3 k, div4_3 k, h]
  · simp [initial_condition, mod4_3 k, div4_3 k, h]
  · simp [solverY0]

/-- Witness for the amended C3 at concrete temperatures on both sides of the
threshold. -/
theorem C3_initial_condition_witness :
    ((1 : ℝ) > 1e-5 ∧
      initial_condition 0 1 (fun _ => 0) (4*0+3)
        = ((1 / (Real.exp (((fun (_ : ℕ) => (0 : ℝ)) 0 - 0) / 1) + 1) : ℝ) : ℂ))
    ∧ (¬((0 : ℝ) > 1e-5) ∧ initial_condition 0 0 (fun _ => 0) (4*0+3) = 0)
    ∧ initial_condition 0 1 (fun _ => 0) (4*0+1) = 0 :=
  ⟨⟨by norm_num, (C3_initial_condition 0 1 1 (fun _ => 0) 0).2.2.1 (by norm_num)⟩,
   ⟨by norm_num, (C3_initial_condition 0 0 1 (fun _ => 0) 0).2.2.2.1 (by norm_num)⟩,
   (C3_initial_condition 0 1 1 (fun _ => 0) 0).1⟩

/-- Once the solver reports failure the path loop does nothing further: no
retry, no further integration steps, no further recording, no message. -/
theorem pathLoopAux_stop (integ : ℕ → (ℕ → ℂ) → (ℕ → ℂ) × Bool)
    (stride nk : ℕ) (uo : Bool) (fuel ti : ℕ) (y : ℕ → ℂ)
    (sols : List (List ℂ)) (tr : List Msg) :
    pathLoopAux integ stride nk uo fuel ti y false sols tr = (sols, tr, y, ti) := by
  cases fuel <;> simp [pathLoopAux]

/-- A step at which the integrator reports failure is the last one executed:
the loop performs that step (recording its state at an output stride, and
emitting only the routine progress message), then aborts the remainder of the
time loop. -/
theorem pathLoopAux_fail_step (integ : ℕ → (ℕ → ℂ) → (ℕ → ℂ) × Bool)
    (stride nk : ℕ) (uo : Bool) (fuel ti : ℕ) (y : ℕ → ℂ)
    (sols : List (List ℂ)) (tr : List Msg)
    (hfail : (integ ti y).2 = false) :
    pathLoopAux integ stride nk uo (fuel+1) ti y true sols tr
      = ((if ti % stride = 0 then sols ++ [truncState nk (integ ti y).1] else sols),
         (if ti % 1000 = 0 ∧ uo then tr ++ [Msg.progress ti] else tr),
         (integ ti y).1, ti+1) := by
  simp only [pathLoopAux, if_pos]
  rw [hfail, pathLoopAux_stop]

/-- The per-path results of the solver are the independent per-path runs, in
path order. -/
theorem solveAllPaths_sols (numPaths : ℕ) (y0s : ℕ → ℕ → ℂ)
    (integ : ℕ → ℕ → (ℕ → ℂ) → (ℕ → ℂ) × Bool) (uo : Bool)
    (Nt stride nk : ℕ) :
    (solveAllPaths numPaths y0s integ uo Nt stride nk).1
      = (List.range numPaths).map
          (fun p => (pathLoop (integ p) stride nk uo Nt (y0s p)).1) := by
  have aux : ∀ (l : List ℕ) (acc : List (List (List ℂ)) × List Msg),
      (l.foldl (fun acc p =>
        (acc.1 ++ [(pathLoop (integ p) stride nk uo Nt (y0s p)).1],
          (if uo = true then acc.2 ++ [Msg.pathNum (p+1)] else acc.2) ++
            ((pathLoop (integ p) stride nk uo Nt (y0s p)).2.1 ++
              [Msg.shape (pathLoop (integ p) stride nk uo Nt (y0s p)).1.length (4*nk)]))) acc).1
      = acc.1 ++ l.map (fun p => (pathLoop (integ p) stride nk uo Nt (y0s p)).1) := by
    intro l
    induction l with
    | nil => intro acc; simp
    | cons p l ih =>
      intro acc
      rw [List.foldl_cons, ih]
      simp
  have h := aux (List.range numPaths) ([], [])
  simpa [solveAllPaths] using h

/-- Reading the mapped range list at an index. -/
theorem getD_map_range {α : Type} (n p : ℕ) (f : ℕ → α) (d : α) :
    ((List.range n).map f).getD p d = if p < n then f p else d := by
  by_cases hp : p < n
  · rw [List.getD_eq_getElem _ _ (by simpa using hp)]
    simp [hp]
  · rw [List.getD_eq_default _ _ (by simpa using Nat.le_of_not_lt hp)]
    simp [hp]

/-- C9 (amended): when the abstract stiff integrator reports failure at a
step, the loop executes exactly that step — recording the state at an output
stride and emitting only the routine progress message, i.e. no diagnostic of
the failure — and then aborts the remainder of the path's time loop without
retrying; the partial recorded result is still surfaced (the per-path results
list always has one entry per path), and the result of any path depends only
on that path's own integrator. -/
theorem C9_failure_handling (integ : ℕ → (ℕ → ℂ) → (ℕ → ℂ) × Bool)
    (stride nk : ℕ) (uo : Bool) (fuel ti : ℕ) (y : ℕ → ℂ)
    (sols : List (List ℂ)) (tr : List Msg) (numPaths : ℕ)
    (y0s : ℕ → ℕ → ℂ) (integA integB : ℕ → ℕ → (ℕ → ℂ) → (ℕ → ℂ) × Bool)
    (Nt p : ℕ)
    (hfail : (integ ti y).2 = false) (hAB : integA p = integB p) :
    pathLoopAux integ stride nk uo (fuel+1) ti y true sols tr
      = ((if ti % stride = 0 then sols ++ [truncState nk (integ ti y).1] else sols),
         (if ti % 1000 = 0 ∧ uo then tr ++ [Msg.progress ti] else tr),
         (integ ti y).1, ti+1)
    ∧ (∀ (f ti' : ℕ) (y' : ℕ → ℂ) (sols' : List (List ℂ)) (tr' : List Msg),
        pathLoopAux integ stride nk uo f ti' y' false sols' tr' = (sols', tr', y', ti'))
    ∧ (solveAllPaths numPaths y0s integA uo Nt stride nk).1.getD p []
        = (solveAllPaths numPaths y0s integB uo Nt stride nk).1.getD p []
    ∧ (solveAllPaths numPaths y0s integA uo Nt stride nk).1.length = numPaths := by
  refine ⟨pathLoopAux_fail_step integ stride nk uo fuel ti y sols tr hfail,
    fun f ti' y' sols' tr' => pathLoopAux_stop integ stride nk uo f ti' y' sols' tr',
    ?_, ?_⟩
  · rw [solveAllPaths_sols, solveAllPaths_sols, getD_map_range, getD_map_range, hAB]
  · rw [solveAllPaths_sols]
    simp

/-- Witness for the amended C9 at a concrete failing step. -/
theorem C9_failure_handling_witness :
    ((integFailC9 0) 2 (fun _ => 0)).2 = false ∧
      pathLoopAux (integFailC9 0) 1 1 true (0+1) 2 (fun _ => 0) true [] []
        = ((if 2 % 1 = 0 then [] ++ [truncState 1 ((integFailC9 0) 2 (fun _ => 0)).1] else []),
           (if 2 % 1000 = 0 ∧ true then [] ++ [Msg.progress 2] else []),
           ((integFailC9 0) 2 (fun _ => 0)).1, 2+1) :=
  ⟨rfl,
   (C9_failure_handling (integFailC9 0) 1 1 true 0 2 (fun _ => 0) [] [] 1
      (fun _ _ => 0) integOkC9 integOkC9 3 0 rfl rfl).1⟩

/-- C9 counterexample: a run whose integrator fails at its final step
produces exactly the same recorded solutions and exactly the same user
output as the fully successful run — the source emits no diagnostic
identifying the failing path and time. -/
theorem C9_counterexample :
    solveAllPaths 1 (fun _ _ => 0) integFailC9 true 3 1 1
      = solveAllPaths 1 (fun _ _ => 0) integOkC9 true 3 1 1
    ∧ (integFailC9 0 2 (fun _ => 0)).2 = false := by
  constructor
  · rfl
  · rfl

/-- Accumulating over a list with a pair of running scalars equals the pair
of sums. -/
theorem foldl_pair_add {α : Type} (f g : α → ℝ) (l : List α) (init : ℝ × ℝ) :
    l.foldl (fun acc x => (acc.1 + f x, acc.2 + g x)) init
      = (init.1 + (l.map f).sum, init.2 + (l.map g).sum) := by
  induction l generalizing init with
  | nil => simp
  | cons a l ih => simp [ih, add_assoc]

/-- The nested accumulation loops of `emission_exact` produce, per time
sample, the double sum over paths and k-points of the per-k-point
contributions built from the eigenbasis-conjugated band-derivative
operator. -/
theorem emisPairAt_eq (E : EmisSys) (paths : List (List (ℝ × ℝ)))
    (tarr : List ℝ) (sol : ℕ → ℕ → ℕ → ℕ → ℂ) (E_dir : ℝ × ℝ) (A : ℕ → ℝ)
    (zF : ℝ → ℝ × ℝ × ℝ) (g : Gauge) (i : ℕ) :
    emisPairAt E paths tarr sol E_dir A zF g i
      = (((List.range paths.length).map (fun ip =>
            (((List.range (paths.getD ip []).length)).map (fun ik =>
              (specMpar E g E_dir (zF (tarr.getD i 0)) (A i) ((paths.getD ip []).getD ik (0, 0)) 0 0).re
                  * (sol ik ip i 0).re
              + (specMpar E g E_dir (zF (tarr.getD i 0)) (A i) ((paths.getD ip []).getD ik (0, 0)) 1 1).re
                  * (sol ik ip i 3).re
              + 2*((specMpar E g E_dir (zF (tarr.getD i 0)) (A i) ((paths.getD ip []).getD ik (0, 0)) 0 1)
                  * sol ik ip i 2).re)).sum)).sum,
         ((List.range paths.length).map (fun ip =>
            (((List.range (paths.getD ip []).length)).map (fun ik =>
              (specMort E g E_dir (zF (tarr.getD i 0)) (A i) ((paths.getD ip []).getD ik (0, 0)) 0 0).re
                  * (sol ik ip i 0).re
              + (specMort E g E_dir (zF (tarr.getD i 0)) (A i) ((paths.getD ip []).getD ik (0, 0)) 1 1).re
                  * (sol ik ip i 3).re
              + 2*((specMort E g E_dir (zF (tarr.getD i 0)) (A i) ((paths.getD ip []).getD ik (0, 0)) 0 1)
                  * sol ik ip i 2).re)).sum)).sum) := by
  simp only [emisPairAt, specMpar, specMort, foldl_pair_add, zero_add, add_assoc]

/-- C4: for every retained time sample, `emission_exact` accumulates, over
every k-point of every path,
`I_parallel += Re(M_00)*Re f_v + Re(M_11)*Re f_e + 2*Re(M_01 * p_cv)` (and
analogously for `I_ortho` with the orthogonally projected operator), where
`M` is the eigenbasis-conjugated band-derivative operator and the recorded
state components at indices `0, 2, 3` enter as `f_v, p_cv, f_e`. -/
theorem C4_emission_accumulation (E : EmisSys) (paths : List (List (ℝ × ℝ)))
    (tarr : List ℝ) (sol : ℕ → ℕ → ℕ → ℕ → ℂ) (E_dir : ℝ × ℝ) (A : ℕ → ℝ)
    (zF : ℝ → ℝ × ℝ × ℝ) (g : Gauge) (i : ℕ) (hi : i < tarr.length) :
    (emission_exact E paths tarr sol E_dir A zF g).1.getD i 0
      = ((List.range paths.length).map (fun ip =>
            (((List.range (paths.getD ip []).length)).map (fun ik =>
              (specMpar E g E_dir (zF (tarr.getD i 0)) (A i) ((paths.getD ip []).getD ik (0, 0)) 0 0).re
                  * (sol ik ip i 0).re
              + (specMpar E g E_dir (zF (tarr.getD i 0)) (A i) ((paths.getD ip []).getD ik (0, 0)) 1 1).re
                  * (sol ik ip i 3).re
              + 2*((specMpar E g E_dir (zF (tarr.getD i 0)) (A i) ((paths.getD ip []).getD ik (0, 0)) 0 1)
                  * sol ik ip i 2).re)).sum)).sum
    ∧ (emission_exact E paths tarr sol E_dir A zF g).2.getD i 0
      = ((List.range paths.length).map (fun ip =>
            (((List.range (paths.getD ip []).length)).map (fun ik =>
              (specMort E g E_dir (zF (tarr.getD i 0)) (A i) ((paths.getD ip []).getD ik (0, 0)) 0 0).re
                  * (sol ik ip i 0).re
              + (specMort E g E_dir (zF (tarr.getD i 0)) (A i) ((paths.getD ip []).getD ik (0, 0)) 1 1).re
                  * (sol ik ip i 3).re
              + 2*((specMort E g E_dir (zF (tarr.getD i 0)) (A i) ((paths.getD ip []).getD ik (0, 0)) 0 1)
                  * sol ik ip i 2).re)).sum)).sum := by
  have hp := emisPairAt_eq E paths tarr sol E_dir A zF g i
  have h1 : (emission_exact E paths tarr sol E_dir A zF g).1.getD i 0
      = (emisPairAt E paths tarr sol E_dir A zF g i).1 := by
    simp only [emission_exact]
    rw [getD_map_range]
    simp [hi]
  have h2 : (emission_exact E paths tarr sol E_dir A zF g).2.getD i 0
      = (emisPairAt E paths tarr sol E_dir A zF g i).2 := by
    simp only [emission_exact]
    rw [getD_map_range]
    simp [hi]
  exact ⟨by rw [h1, hp], by rw [h2, hp]⟩

/-- Witness for C4 at a concrete one-path, one-k-point, one-sample
instance. -/
theorem C4_emission_accumulation_witness :
    (0 : ℕ) < ([(0 : ℝ)] : List ℝ).length
    ∧ ((emission_exact emisSysOne [[((0 : ℝ), (0 : ℝ))]] [0] (fun _ _ _ _ => 0) (1, 0)
          (fun _ => 0) (fun _ => (0, 0, 0)) Gauge.length).1.getD 0 0
      = ((List.range ([[((0 : ℝ), (0 : ℝ))]] : List (List (ℝ × ℝ))).length).map (fun ip =>
            (((List.range (([[((0 : ℝ), (0 : ℝ))]] : List (List (ℝ × ℝ))).getD ip []).length)).map (fun ik =>
              (specMpar emisSysOne Gauge.length (1, 0) ((fun (_ : ℝ) => ((0 : ℝ), (0 : ℝ), (0 : ℝ))) (([(0 : ℝ)] : List ℝ).getD 0 0)) ((fun (_ : ℕ) => (0 : ℝ)) 0) ((([[((0 : ℝ), (0 : ℝ))]] : List (List (ℝ × ℝ))).getD ip []).getD ik (0, 0)) 0 0).re
                  * ((fun (_ _ _ _ : ℕ) => (0 : ℂ)) ik ip 0 0).re
              + (specMpar emisSysOne Gauge.length (1, 0) ((fun (_ : ℝ) => ((0 : ℝ), (0 : ℝ), (0 : ℝ))) (([(0 : ℝ)] : List ℝ).getD 0 0)) ((fun (_ : ℕ) => (0 : ℝ)) 0) ((([[((0 : ℝ), (0 : ℝ))]] : List (List (ℝ × ℝ))).getD ip []).getD ik (0, 0)) 1 1).re
                  * ((fun (_ _ _ _ : ℕ) => (0 : ℂ)) ik ip 0 3).re
              + 2*((specMpar emisSysOne Gauge.length (1, 0) ((fun (_ : ℝ) => ((0 : ℝ), (0 : ℝ), (0 : ℝ))) (([(0 : ℝ)] : List ℝ).getD 0 0)) ((fun (_ : ℕ) => (0 : ℝ)) 0) ((([[((0 : ℝ), (0 : ℝ))]] : List (List (ℝ × ℝ))).getD ip []).getD ik (0, 0)) 0 1)
                  * (fun (_ _ _ _ : ℕ) => (0 : ℂ)) ik ip 0 2).re)).sum)).sum) :=
  ⟨by norm_num,
   (C4_emission_accumulation emisSysOne [[((0 : ℝ), (0 : ℝ))]] [0] (fun _ _ _ _ => 0)
      (1, 0) (fun _ => 0) (fun _ => (0, 0, 0)) Gauge.length 0 (by norm_num)).1⟩

/-! ### Hexagonal-mesh geometry in scaled coordinates -/

theorem hexS_iff_abs (xi eta : ℝ) :
    hexS (xi, eta) ↔ (|eta| ≤ 1 ∧ 3*|xi| + |eta| ≤ 2) := by
  constructor
  · rintro ⟨⟨h1, h2⟩, h3, h4, h5, h6⟩
    refine ⟨abs_le.mpr ⟨h1, h2⟩, ?_⟩
    rcases abs_cases xi with ⟨hx, _⟩ | ⟨hx, _⟩ <;>
      rcases abs_cases eta with ⟨hy, _⟩ | ⟨hy, _⟩ <;> rw [hx, hy] <;> linarith
  · rintro ⟨h1, h2⟩
    obtain ⟨h1a, h1b⟩ := abs_le.mp h1
    refine ⟨⟨h1a, h1b⟩, ?_, ?_, ?_, ?_⟩ <;>
      nlinarith [le_abs_self xi, neg_abs_le xi, le_abs_self eta, neg_abs_le eta]

theorem sqrt3_pos : (0 : ℝ) < Real.sqrt 3 :=
  Real.sqrt_pos.mpr (by norm_num)

theorem sqrt3_mul_self : Real.sqrt 3 * Real.sqrt 3 = 3 :=
  Real.mul_self_sqrt (by norm_num)

theorem hexC_pos (a : ℝ) (ha : 0 < a) : (0 : ℝ) < 2*Real.pi/(Real.sqrt 3*a) := by
  have := Real.pi_pos
  have := sqrt3_pos
  positivity

/-- Factoring of the scaled slant expressions. -/
theorem slant_factor (a u v : ℝ) :
    Real.sqrt 3*(Real.sqrt 3 * (2*Real.pi/(Real.sqrt 3*a)) * u)
        + (2*Real.pi/(Real.sqrt 3*a)) * v
      = (2*Real.pi/(Real.sqrt 3*a)) * (3*u + v) := by
  have h : Real.sqrt 3*(Real.sqrt 3 * (2*Real.pi/(Real.sqrt 3*a)) * u)
      = (Real.sqrt 3 * Real.sqrt 3) * ((2*Real.pi/(Real.sqrt 3*a)) * u) := by ring
  rw [h, sqrt3_mul_self]
  ring

/-- The scaling map turns the hexagon membership test into the scaled one. -/
theorem scaleMap_in_hex (a : ℝ) (ha : 0 < a) (q : ℝ × ℝ) :
    is_in_hex (scaleMap a q) a ↔ hexS q := by
  obtain ⟨xi, eta⟩ := q
  have hc := hexC_pos a ha
  rw [hexS_iff_abs]
  simp only [is_in_hex, scaleMap]
  rw [abs_mul, abs_of_nonneg hc.le,
    show |Real.sqrt 3 * (2*Real.pi/(Real.sqrt 3*a)) * xi|
        = Real.sqrt 3 * (2*Real.pi/(Real.sqrt 3*a)) * |xi| by
      rw [abs_mul, abs_of_nonneg (by positivity : (0:ℝ) ≤ Real.sqrt 3 * (2*Real.pi/(Real.sqrt 3*a)))],
    show Real.sqrt 3*(Real.sqrt 3 * (2*Real.pi/(Real.sqrt 3*a)) * |xi|)
        + (2*Real.pi/(Real.sqrt 3*a)) * |eta|
      = (2*Real.pi/(Real.sqrt 3*a)) * (3*|xi| + |eta|) from slant_factor a |xi| |eta|,
    show 4*Real.pi/(Real.sqrt 3*a) = (2*Real.pi/(Real.sqrt 3*a)) * 2 by ring]
  constructor
  · rintro ⟨u1, u2⟩
    exact ⟨(mul_le_iff_le_one_right hc).mp u1, (mul_le_mul_left hc).mp u2⟩
  · rintro ⟨u1, u2⟩
    exact ⟨(mul_le_iff_le_one_right hc).mpr u1, (mul_le_mul_left hc).mpr u2⟩

/-- The scaling map intertwines `reflect_point` (with the modelled reciprocal
lattice vectors) and its scaled counterpart. -/
theorem scaleMap_reflect (a : ℝ) (ha : 0 < a) (q : ℝ × ℝ) :
    reflect_point (scaleMap a q) a (b1hex a) (b2hex a) = scaleMap a (reflectS q) := by
  obtain ⟨xi, eta⟩ := q
  have hc := hexC_pos a ha
  have h3 := sqrt3_mul_self
  have e1 : (2*Real.pi/(Real.sqrt 3*a)) * eta > 2*Real.pi/(Real.sqrt 3*a) ↔ eta > 1 := by
    constructor <;> intro h <;> nlinarith
  have e2 : (2*Real.pi/(Real.sqrt 3*a)) * eta < -(2*Real.pi/(Real.sqrt 3*a)) ↔ eta < -1 := by
    constructor <;> intro h <;> nlinarith
  have hfac := slant_factor a xi eta
  have hfacn : -(Real.sqrt 3)*(Real.sqrt 3 * (2*Real.pi/(Real.sqrt 3*a)) * xi)
        + (2*Real.pi/(Real.sqrt 3*a)) * eta
      = (2*Real.pi/(Real.sqrt 3*a)) * (3*(-xi) + eta) := by
    have h := slant_factor a (-xi) eta
    calc -(Real.sqrt 3)*(Real.sqrt 3 * (2*Real.pi/(Real.sqrt 3*a)) * xi)
          + (2*Real.pi/(Real.sqrt 3*a)) * eta
        = Real.sqrt 3*(Real.sqrt 3 * (2*Real.pi/(Real.sqrt 3*a)) * (-xi))
          + (2*Real.pi/(Real.sqrt 3*a)) * eta := by ring
      _ = (2*Real.pi/(Real.sqrt 3*a)) * (3*(-xi) + eta) := h
  have e3 : Real.sqrt 3*(Real.sqrt 3 * (2*Real.pi/(Real.sqrt 3*a)) * xi)
        + (2*Real.pi/(Real.sqrt 3*a)) * eta > 4*Real.pi/(Real.sqrt 3*a)
      ↔ 3*xi + eta > 2 := by
    rw [hfac, show 4*Real.pi/(Real.sqrt 3*a) = (2*Real.pi/(Real.sqrt 3*a)) * 2 by ring]
    exact mul_lt_mul_left hc
  have e4 : -(Real.sqrt 3)*(Real.sqrt 3 * (2*Real.pi/(Real.sqrt 3*a)) * xi)
        + (2*Real.pi/(Real.sqrt 3*a)) * eta < -(4*Real.pi/(Real.sqrt 3*a))
      ↔ -(3*xi) + eta < -2 := by
    rw [hfacn, show -(4*Real.pi/(Real.sqrt 3*a)) = (2*Real.pi/(Real.sqrt 3*a)) * (-2) by ring,
      show (3*(-xi) + eta) = -(3*xi) + eta by ring]
    exact mul_lt_mul_left hc
  have e5 : Real.sqrt 3*(Real.sqrt 3 * (2*Real.pi/(Real.sqrt 3*a)) * xi)
        + (2*Real.pi/(Real.sqrt 3*a)) * eta < -(4*Real.pi/(Real.sqrt 3*a))
      ↔ 3*xi + eta < -2 := by
    rw [hfac, show -(4*Real.pi/(Real.sqrt 3*a)) = (2*Real.pi/(Real.sqrt 3*a)) * (-2) by ring]
    exact mul_lt_mul_left hc
  have e6 : -(Real.sqrt 3)*(Real.sqrt 3 * (2*Real.pi/(Real.sqrt 3*a)) * xi)
        + (2*Real.pi/(Real.sqrt 3*a)) * eta > 4*Real.pi/(Real.sqrt 3*a)
      ↔ -(3*xi) + eta > 2 := by
    rw [hfacn, show 4*Real.pi/(Real.sqrt 3*a) = (2*Real.pi/(Real.sqrt 3*a)) * 2 by ring,
      show (3*(-xi) + eta) = -(3*xi) + eta by ring]
    exact mul_lt_mul_left hc
  have hs3 : Real.sqrt 3 ≠ 0 := ne_of_gt sqrt3_pos
  have ha' : a ≠ 0 := ne_of_gt ha
  simp only [reflect_point, reflectS, scaleMap, b1hex, b2hex, e1, e2, e3, e4, e5, e6]
  split_ifs <;> refine Prod.ext ?_ ?_ <;> field_simp <;> ring

/-- The scaling map intertwines the bounded folding loops. -/
theorem scaleMap_reflectN (a : ℝ) (ha : 0 < a) (n : ℕ) (q : ℝ × ℝ) :
    reflectN a (b1hex a) (b2hex a) n (scaleMap a q) = scaleMap a (reflectSN n q) := by
  induction n generalizing q with
  | zero => rfl
  | succ n ih =>
    simp only [reflectN, reflectSN]
    by_cases hq : hexS q
    · rw [if_pos ((scaleMap_in_hex a ha q).mpr hq), if_pos hq]
    · rw [if_neg (fun h => hq ((scaleMap_in_hex a ha q).mp h)), if_neg hq,
        scaleMap_reflect a ha q, ih]

/-- A reflection of a point outside the hexagon strictly decreases the scaled
squared distance `3*xi^2 + eta^2` to the zone center. -/
theorem reflectS_decreases (q : ℝ × ℝ) (hq : ¬ hexS q) :
    3*(reflectS q).1^2 + (reflectS q).2^2 < 3*q.1^2 + q.2^2 := by
  obtain ⟨xi, eta⟩ := q
  simp only [reflectS]
  split_ifs with c1 c2 c3 c4 c5 c6
  · simp only
    nlinarith
  · simp only
    nlinarith
  · simp only
    nlinarith
  · simp only
    nlinarith
  · simp only
    nlinarith
  · simp only
    nlinarith
  · exact absurd ⟨⟨by linarith, by linarith⟩, by linarith, by linarith, by linarith, by linarith⟩ hq

/-- From a Monkhorst-Pack starting point (`|a1| ≤ 1/2`, `|a2| ≤ 1/2`, scaled
coordinates `(a1, -a1+2*a2)`, i.e. `|xi| ≤ 1/2` and `|xi + eta| ≤ 1`), at
most two reflections reach the hexagon. -/
theorem reflectSN_two_in_hex (xi eta : ℝ) (h1 : -(1/2) ≤ xi) (h2 : xi ≤ 1/2)
    (h3 : -1 ≤ xi + eta) (h4 : xi + eta ≤ 1) :
    hexS (reflectSN 2 (xi, eta)) := by
  by_cases hq : hexS (xi, eta)
  · simpa [reflectSN, hq] using hq
  · by_cases hq1 : hexS (reflectS (xi, eta))
    · simp only [reflectSN, if_neg hq, if_pos hq1]
      exact hq1
    · simp only [reflectSN, if_neg hq, if_neg hq1]
      by_cases c1 : eta > 1
      · -- crossed the top edge
        have hr : reflectS (xi, eta) = (xi, eta - 2) := by
          simp [reflectS, c1]
        rw [hr] at hq1 ⊢
        by_cases d4 : -(3*xi) + (eta - 2) < -2
        · have hr2 : reflectS (xi, eta - 2) = (xi - 1, eta - 2 + 1) := by
            simp only [reflectS]
            rw [if_neg (by first | linarith | (simp only; linarith)), if_neg (by first | linarith | (simp only; linarith)),
              if_neg (by first | linarith | (simp only; linarith)), if_pos (by simpa using d4)]
          rw [hr2]
          refine ⟨⟨by first | linarith | (simp only; linarith), by first | linarith | (simp only; linarith)⟩,
            by first | linarith | (simp only; linarith), by first | linarith | (simp only; linarith),
            by first | linarith | (simp only; linarith), by first | linarith | (simp only; linarith)⟩
        · by_cases d5 : 3*xi + (eta - 2) < -2
          · have hr2 : reflectS (xi, eta - 2) = (xi + 1, eta - 2 + 1) := by
              simp only [reflectS]
              rw [if_neg (by first | linarith | (simp only; linarith)), if_neg (by first | linarith | (simp only; linarith)),
                if_neg (by first | linarith | (simp only; linarith)), if_neg (by simpa using d4),
                if_pos (by simpa using d5)]
            rw [hr2]
            refine ⟨⟨by first | linarith | (simp only; linarith), by first | linarith | (simp only; linarith)⟩,
              by first | linarith | (simp only; linarith), by first | linarith | (simp only; linarith),
              by first | linarith | (simp only; linarith), by first | linarith | (simp only; linarith)⟩
          · exact absurd ⟨⟨by first | linarith | (simp only; linarith), by first | linarith | (simp only; linarith)⟩,
              by first | linarith | (simp only; linarith), by first | linarith | (simp only; linarith),
              by first | linarith | (simp only; linarith), by first | linarith | (simp only; linarith)⟩ hq1
      · by_cases c2 : eta < -1
        · -- crossed the bottom edge
          have hr : reflectS (xi, eta) = (xi, eta + 2) := by
            simp only [reflectS]
            rw [if_neg (by first | linarith | (simp only; linarith)), if_pos (by simpa using c2)]
          rw [hr] at hq1 ⊢
          by_cases d3 : 3*xi + (eta + 2) > 2
          · have hr2 : reflectS (xi, eta + 2) = (xi - 1, eta + 2 - 1) := by
              simp only [reflectS]
              rw [if_neg (by first | linarith | (simp only; linarith)), if_neg (by first | linarith | (simp only; linarith)),
                if_pos (by simpa using d3)]
            rw [hr2]
            refine ⟨⟨by first | linarith | (simp only; linarith), by first | linarith | (simp only; linarith)⟩,
              by first | linarith | (simp only; linarith), by first | linarith | (simp only; linarith),
              by first | linarith | (simp only; linarith), by first | linarith | (simp only; linarith)⟩
          · by_cases d6 : -(3*xi) + (eta + 2) > 2
            · have hr2 : reflectS (xi, eta + 2) = (xi + 1, eta + 2 - 1) := by
                simp only [reflectS]
                rw [if_neg (by first | linarith | (simp only; linarith)), if_neg (by first | linarith | (simp only; linarith)),
                  if_neg (by simpa using d3), if_neg (by first | linarith | (simp only; linarith)),
                  if_neg (by first | linarith | (simp only; linarith)), if_pos (by simpa using d6)]
              rw [hr2]
              refine ⟨⟨by first | linarith | (simp only; linarith), by first | linarith | (simp only; linarith)⟩,
                by first | linarith | (simp only; linarith), by first | linarith | (simp only; linarith),
                by first | linarith | (simp only; linarith), by first | linarith | (simp only; linarith)⟩
            · exact absurd ⟨⟨by first | linarith | (simp only; linarith), by first | linarith | (simp only; linarith)⟩,
                by first | linarith | (simp only; linarith), by first | linarith | (simp only; linarith),
                by first | linarith | (simp only; linarith), by first | linarith | (simp only; linarith)⟩ hq1
        · -- inside the horizontal strip: a single reflection suffices, which
          -- contradicts hq1
          exfalso
          apply hq1
          by_cases c3 : 3*xi + eta > 2
          · have hr : reflectS (xi, eta) = (xi - 1, eta - 1) := by
              simp only [reflectS]
              rw [if_neg (by simpa using c1), if_neg (by simpa using c2),
                if_pos (by simpa using c3)]
            rw [hr]
            exact ⟨⟨by first | linarith | (simp only; linarith), by first | linarith | (simp only; linarith)⟩,
              by first | linarith | (simp only; linarith), by first | linarith | (simp only; linarith),
              by first | linarith | (simp only; linarith), by first | linarith | (simp only; linarith)⟩
          · by_cases c4 : -(3*xi) + eta < -2
            · have hr : reflectS (xi, eta) = (xi - 1, eta + 1) := by
                simp only [reflectS]
                rw [if_neg (by simpa using c1), if_neg (by simpa using c2),
                  if_neg (by simpa using c3), if_pos (by simpa using c4)]
              rw [hr]
              exact ⟨⟨by first | linarith | (simp only; linarith), by first | linarith | (simp only; linarith)⟩,
                by first | linarith | (simp only; linarith), by first | linarith | (simp only; linarith),
                by first | linarith | (simp only; linarith), by first | linarith | (simp only; linarith)⟩
            · by_cases c5 : 3*xi + eta < -2
              · have hr : reflectS (xi, eta) = (xi + 1, eta + 1) := by
                  simp only [reflectS]
                  rw [if_neg (by simpa using c1), if_neg (by simpa using c2),
                    if_neg (by simpa using c3), if_neg (by simpa using c4),
                    if_pos (by simpa using c5)]
                rw [hr]
                exact ⟨⟨by first | linarith | (simp only; linarith), by first | linarith | (simp only; linarith)⟩,
                  by first | linarith | (simp only; linarith), by first | linarith | (simp only; linarith),
                  by first | linarith | (simp only; linarith), by first | linarith | (simp only; linarith)⟩
              · by_cases c6 : -(3*xi) + eta > 2
                · have hr : reflectS (xi, eta) = (xi + 1, eta - 1) := by
                    simp only [reflectS]
                    rw [if_neg (by simpa using c1), if_neg (by simpa using c2),
                      if_neg (by simpa using c3), if_neg (by simpa using c4),
                      if_neg (by simpa using c5), if_pos (by simpa using c6)]
                  rw [hr]
                  exact ⟨⟨by first | linarith | (simp only; linarith), by first | linarith | (simp only; linarith)⟩,
                    by first | linarith | (simp only; linarith), by first | linarith | (simp only; linarith),
                    by first | linarith | (simp only; linarith), by first | linarith | (simp only; linarith)⟩
                · exact absurd ⟨⟨by linarith, by linarith⟩, by linarith,
                    by linarith, by linarith, by linarith⟩ hq

/-- In the `K` alignment, the single fixed shift puts every sample point into
the hexagon. -/
theorem hexS_K_fold (a1 a2 : ℝ) (h1 : -(1/2) < a1) (h2 : a1 ≤ 1)
    (h3 : 0 ≤ a2) (h4 : a2 ≤ 1/2) :
    hexS (if hexS (4*a1/3 + 2*a2/3, 2*a2) then (4*a1/3 + 2*a2/3, 2*a2)
          else (4*a1/3 + 2*a2/3 - 1, 2*a2 - 1)) := by
  by_cases hq : hexS (4*a1/3 + 2*a2/3, 2*a2)
  · rwa [if_pos hq]
  · rw [if_neg hq]
    by_cases hout : 3*(4*a1/3 + 2*a2/3) + 2*a2 ≤ 2
    · exact absurd ⟨⟨by first | linarith | (simp only; linarith), by first | linarith | (simp only; linarith)⟩,
        by first | linarith | (simp only; linarith), by first | linarith | (simp only; linarith),
        by first | linarith | (simp only; linarith), by first | linarith | (simp only; linarith)⟩ hq
    · have hgt : 3*(4*a1/3 + 2*a2/3) + 2*a2 > 2 := lt_of_not_le hout
      exact ⟨⟨by first | linarith | (simp only; linarith), by first | linarith | (simp only; linarith)⟩,
        by first | linarith | (simp only; linarith), by first | linarith | (simp only; linarith),
        by first | linarith | (simp only; linarith), by first | linarith | (simp only; linarith)⟩

theorem linspace_length (lo hi : ℝ) (n : ℕ) : (linspace lo hi n).length = n := by
  rw [linspace, List.length_map, List.length_range]

/-- Every element of `linspace lo hi n` lies in `[lo, hi]`. -/
theorem linspace_bounds (lo hi : ℝ) (n : ℕ) (hlh : lo ≤ hi) (x : ℝ)
    (hx : x ∈ linspace lo hi n) : lo ≤ x ∧ x ≤ hi := by
  simp only [linspace, List.mem_map, List.mem_range] at hx
  obtain ⟨i, hin, rfl⟩ := hx
  by_cases h1 : n = 1
  · subst h1
    have hi0 : i = 0 := by omega
    subst hi0
    norm_num
    exact hlh
  · have hn2 : 2 ≤ n := by omega
    have hden : (0:ℝ) < (n:ℝ) - 1 := by
      have : (2:ℝ) ≤ (n:ℝ) := by exact_mod_cast hn2
      linarith
    have hstep : 0 ≤ (hi - lo) / ((n:ℝ) - 1) := div_nonneg (by linarith) hden.le
    constructor
    · nlinarith [mul_nonneg (show (0:ℝ) ≤ (i:ℝ) from Nat.cast_nonneg i) hstep]
    · have hi' : (i:ℝ) ≤ (n:ℝ) - 1 := by
        have : (i:ℝ) + 1 ≤ (n:ℝ) := by exact_mod_cast hin
        linarith
      have hmul : (i:ℝ) * ((hi - lo) / ((n:ℝ) - 1))
          ≤ ((n:ℝ) - 1) * ((hi - lo) / ((n:ℝ) - 1)) :=
        mul_le_mul_of_nonneg_right hi' hstep
      have hcancel : ((n:ℝ) - 1) * ((hi - lo) / ((n:ℝ) - 1)) = hi - lo := by
        field_simp
      linarith

theorem sum_map_const {α : Type} (l : List α) (c : ℕ) :
    (l.map (fun _ => c)).sum = l.length * c := by
  induction l with
  | nil => simp
  | cons x l ih => simp [ih, Nat.succ_mul, Nat.add_comm]

theorem sqrt3_cancel (a : ℝ) (ha : a ≠ 0) :
    Real.sqrt 3 * (2*Real.pi/(Real.sqrt 3*a)) = 2*Real.pi/a := by
  have hs3 : Real.sqrt 3 ≠ 0 := ne_of_gt sqrt3_pos
  field_simp
  ring

/-- The Monkhorst-Pack point `a1*b1 + a2*b2` in scaled coordinates. -/
theorem mp_point_scaled (a : ℝ) (ha : 0 < a) (a1 a2 : ℝ) :
    (a1*(b1hex a).1 + a2*(b2hex a).1, a1*(b1hex a).2 + a2*(b2hex a).2)
      = scaleMap a (a1, -a1 + 2*a2) := by
  have hs := sqrt3_cancel a (ne_of_gt ha)
  simp only [b1hex, b2hex, scaleMap]
  refine Prod.ext ?_ ?_
  · simp only
    rw [hs]
    ring
  · simp only
    ring

/-- The `K`-alignment sample point `a1*b_a1 + a2*b_a2` in scaled
coordinates. -/
theorem k_point_scaled (a : ℝ) (ha : 0 < a) (a1 a2 : ℝ) :
    (a1*(8*Real.pi/(a*3)) + a2*(4*Real.pi/(a*3)),
     a1*0 + a2*(4*Real.pi/(a*3)*Real.sqrt 3))
      = scaleMap a (4*a1/3 + 2*a2/3, 2*a2) := by
  have hs3 : Real.sqrt 3 ≠ 0 := ne_of_gt sqrt3_pos
  have ha' : a ≠ 0 := ne_of_gt ha
  simp only [scaleMap]
  refine Prod.ext ?_ ?_
  · simp only
    field_simp
    ring
  · simp only
    have key : 4*Real.pi/(a*3)*Real.sqrt 3 = 2*Real.pi/(Real.sqrt 3*a) * 2 := by
      rw [div_mul_eq_mul_div,
        show 2*Real.pi/(Real.sqrt 3*a) * 2 = 4*Real.pi/(Real.sqrt 3*a) by ring,
        div_eq_div_iff (by positivity) (by positivity)]
      linear_combination (4*Real.pi*a) * sqrt3_mul_self
    calc a1*0 + a2*(4*Real.pi/(a*3)*Real.sqrt 3)
        = a2 * (4*Real.pi/(a*3)*Real.sqrt 3) := by ring
      _ = a2 * (2*Real.pi/(Real.sqrt 3*a) * 2) := by rw [key]
      _ = 2*Real.pi/(Real.sqrt 3*a) * (2*a2) := by ring

theorem alphaM_bounds (Nk : ℕ) (h : 1 ≤ Nk) (x : ℝ)
    (hx : x ∈ linspace (-(1/2) + 1/(2*(Nk:ℝ))) (1/2 - 1/(2*(Nk:ℝ))) Nk) :
    -(1/2) ≤ x ∧ x ≤ 1/2 := by
  have hN : (1:ℝ) ≤ (Nk:ℝ) := by exact_mod_cast h
  have hpos : (0:ℝ) < 1/(2*(Nk:ℝ)) := by positivity
  have hhalf : 1/(2*(Nk:ℝ)) ≤ 1/2 := by
    rw [div_le_div_iff (by positivity) (by norm_num)]
    linarith
  have hb := linspace_bounds _ _ Nk (by linarith) x hx
  exact ⟨by linarith [hb.1], by linarith [hb.2]⟩

theorem alphaK1_bounds (Nk : ℕ) (h : 1 ≤ Nk) (x : ℝ)
    (hx : x ∈ linspace (-(1/2) + 1/(2*(Nk:ℝ))) (1 - 1/(2*(Nk:ℝ))) Nk) :
    -(1/2) < x ∧ x ≤ 1 := by
  have hN : (1:ℝ) ≤ (Nk:ℝ) := by exact_mod_cast h
  have hpos : (0:ℝ) < 1/(2*(Nk:ℝ)) := by positivity
  have hhalf : 1/(2*(Nk:ℝ)) ≤ 1/2 := by
    rw [div_le_div_iff (by positivity) (by norm_num)]
    linarith
  have hb := linspace_bounds _ _ Nk (by linarith) x hx
  exact ⟨by linarith [hb.1], by linarith [hb.2]⟩

theorem alphaK2_bounds (Nk : ℕ) (h : 1 ≤ Nk) (x : ℝ)
    (hx : x ∈ linspace 0 (1/2 - 1/(2*(Nk:ℝ))) Nk) :
    0 ≤ x ∧ x ≤ 1/2 := by
  have hN : (1:ℝ) ≤ (Nk:ℝ) := by exact_mod_cast h
  have hpos : (0:ℝ) < 1/(2*(Nk:ℝ)) := by positivity
  have hhalf : 1/(2*(Nk:ℝ)) ≤ 1/2 := by
    rw [div_le_div_iff (by positivity) (by norm_num)]
    linarith
  have hb := linspace_bounds _ _ Nk (by linarith) x hx
  exact ⟨hb.1, by linarith [hb.2]⟩

/-- C5: for the full-mesh strategy, for every `Nk1 ≥ 1`, `Nk2 ≥ 1` and both
alignments, every k-point generated by `hex_mesh` (with the modelled
reciprocal lattice vectors) satisfies the hexagonal-BZ membership test
`is_in_hex`, and the total number of generated path points equals
`Nk1 * Nk2` (both as the length of the collected mesh and as the total
length of the paths). -/
theorem C5_hex_mesh_valid (Nk1 Nk2 : ℕ) (a : ℝ) (al : Align)
    (h1 : 1 ≤ Nk1) (h2 : 1 ≤ Nk2) (ha : 0 < a) :
    (∀ p ∈ (hex_mesh Nk1 Nk2 a (b1hex a) (b2hex a) al).1, is_in_hex p a)
    ∧ (hex_mesh Nk1 Nk2 a (b1hex a) (b2hex a) al).1.length = Nk1 * Nk2
    ∧ ((hex_mesh Nk1 Nk2 a (b1hex a) (b2hex a) al).2.map List.length).sum
        = Nk1 * Nk2 := by
  cases al with
  | M =>
    refine ⟨?_, ?_, ?_⟩
    · intro p hp
      simp only [hex_mesh, List.mem_flatten, List.mem_map] at hp
      obtain ⟨l, ⟨a2, ha2, rfl⟩, hpl⟩ := hp
      simp only [List.mem_map] at hpl
      obtain ⟨a1, ha1, rfl⟩ := hpl
      rw [mp_point_scaled a ha a1 a2, scaleMap_reflectN a ha, scaleMap_in_hex a ha]
      have hb1 := alphaM_bounds Nk1 h1 a1 ha1
      have hb2 := alphaM_bounds Nk2 h2 a2 ha2
      exact reflectSN_two_in_hex a1 (-a1 + 2*a2) hb1.1 hb1.2
        (by linarith [hb2.1]) (by linarith [hb2.2])
    · simp only [hex_mesh]
      rw [List.length_flatten]
      simp only [List.map_map, Function.comp_def, List.length_map, linspace_length]
      rw [sum_map_const, linspace_length, Nat.mul_comm]
    · simp only [hex_mesh]
      simp only [List.map_map, Function.comp_def, List.length_map, linspace_length]
      rw [sum_map_const, linspace_length, Nat.mul_comm]
  | K =>
    refine ⟨?_, ?_, ?_⟩
    · intro p hp
      simp only [hex_mesh, List.mem_flatten, List.mem_map] at hp
      obtain ⟨l, ⟨a2, ha2, rfl⟩, hpl⟩ := hp
      simp only [List.mem_map] at hpl
      obtain ⟨a1, ha1, rfl⟩ := hpl
      have hk := k_point_scaled a ha a1 a2
      have hb1 := alphaK1_bounds Nk1 h1 a1 ha1
      have hb2 := alphaK2_bounds Nk2 h2 a2 ha2
      have hshift : ((scaleMap a (4*a1/3 + 2*a2/3, 2*a2)).1 - (2*Real.pi/a)*1,
            (scaleMap a (4*a1/3 + 2*a2/3, 2*a2)).2 - (2*Real.pi/a)*(1/Real.sqrt 3))
          = scaleMap a (4*a1/3 + 2*a2/3 - 1, 2*a2 - 1) := by
        have hs := sqrt3_cancel a (ne_of_gt ha)
        have hc2 : (2*Real.pi/a)*(1/Real.sqrt 3) = 2*Real.pi/(Real.sqrt 3*a) := by
          rw [div_mul_div_comm, mul_one, mul_comm a (Real.sqrt 3)]
        simp only [scaleMap]
        refine Prod.ext ?_ ?_
        · simp only
          rw [hs]
          ring
        · simp only
          rw [hc2]
          ring
      rw [show a1 * (8*Real.pi/(a*3)) + a2 * (4*Real.pi/(a*3))
            = (scaleMap a (4*a1/3 + 2*a2/3, 2*a2)).1 from congrArg Prod.fst hk,
        show a1 * 0 + a2 * (4*Real.pi/(a*3)*Real.sqrt 3)
            = (scaleMap a (4*a1/3 + 2*a2/3, 2*a2)).2 from congrArg Prod.snd hk,
        Prod.mk.eta, hshift]
      have hite : (if is_in_hex (scaleMap a (4*a1/3 + 2*a2/3, 2*a2)) a
              then scaleMap a (4*a1/3 + 2*a2/3, 2*a2)
              else scaleMap a (4*a1/3 + 2*a2/3 - 1, 2*a2 - 1))
          = scaleMap a (if hexS (4*a1/3 + 2*a2/3, 2*a2)
              then (4*a1/3 + 2*a2/3, 2*a2) else (4*a1/3 + 2*a2/3 - 1, 2*a2 - 1)) := by
        by_cases hh : hexS (4*a1/3 + 2*a2/3, 2*a2)
        · rw [if_pos ((scaleMap_in_hex a ha _).mpr hh), if_pos hh]
        · rw [if_neg (fun c => hh ((scaleMap_in_hex a ha _).mp c)), if_neg hh]
      rw [hite, scaleMap_in_hex a ha]
      exact hexS_K_fold a1 a2 hb1.1 hb1.2 hb2.1 hb2.2
    · simp only [hex_mesh]
      rw [List.length_flatten]
      simp only [List.map_map, Function.comp_def, List.length_map, linspace_length]
      rw [sum_map_const, linspace_length, Nat.mul_comm]
    · simp only [hex_mesh]
      simp only [List.map_map, Function.comp_def, List.length_map, linspace_length]
      rw [sum_map_const, linspace_length, Nat.mul_comm]

/-- Witness for C5 at `Nk1 = Nk2 = 1`, `a = 1`, `M` alignment. -/
theorem C5_hex_mesh_valid_witness :
    ((1:ℕ) ≤ 1 ∧ (0:ℝ) < 1)
    ∧ (∀ p ∈ (hex_mesh 1 1 1 (b1hex 1) (b2hex 1) Align.M).1, is_in_hex p 1)
    ∧ (hex_mesh 1 1 1 (b1hex 1) (b2hex 1) Align.M).1.length = 1 * 1
    ∧ ((hex_mesh 1 1 1 (b1hex 1) (b2hex 1) Align.M).2.map List.length).sum = 1 * 1 :=
  ⟨⟨le_rfl, by norm_num⟩,
   (C5_hex_mesh_valid 1 1 1 Align.M le_rfl le_rfl (by norm_num)).1,
   (C5_hex_mesh_valid 1 1 1 Align.M le_rfl le_rfl (by norm_num)).2.1,
   (C5_hex_mesh_valid 1 1 1 Align.M le_rfl le_rfl (by norm_num)).2.2⟩

/-- C6: the folding loop of `hex_mesh` terminates: every application of
`reflect_point` (with the modelled reciprocal lattice vectors) to a point
outside the hexagon strictly reduces its Euclidean distance to the zone
center, and for every Monkhorst-Pack starting point of the `M` alignment
two reflections already land inside the hexagon. -/
theorem C6_folding_terminates (a : ℝ) (ha : 0 < a) :
    (∀ p : ℝ × ℝ, ¬ is_in_hex p a →
      Real.sqrt ((reflect_point p a (b1hex a) (b2hex a)).1^2
          + (reflect_point p a (b1hex a) (b2hex a)).2^2)
        < Real.sqrt (p.1^2 + p.2^2))
    ∧ (∀ (Nk1 Nk2 : ℕ) (a1 a2 : ℝ), 1 ≤ Nk1 → 1 ≤ Nk2 →
        a1 ∈ linspace (-(1/2) + 1/(2*(Nk1:ℝ))) (1/2 - 1/(2*(Nk1:ℝ))) Nk1 →
        a2 ∈ linspace (-(1/2) + 1/(2*(Nk2:ℝ))) (1/2 - 1/(2*(Nk2:ℝ))) Nk2 →
        is_in_hex (reflectN a (b1hex a) (b2hex a) 2
          (a1*(b1hex a).1 + a2*(b2hex a).1, a1*(b1hex a).2 + a2*(b2hex a).2)) a) := by
  constructor
  · intro p hp
    have hc := hexC_pos a ha
    have hs3 : Real.sqrt 3 ≠ 0 := ne_of_gt sqrt3_pos
    have ha' : a ≠ 0 := ne_of_gt ha
    have hrepr : scaleMap a
        (p.1/(Real.sqrt 3*(2*Real.pi/(Real.sqrt 3*a))), p.2/(2*Real.pi/(Real.sqrt 3*a))) = p := by
      simp only [scaleMap]
      refine Prod.ext ?_ ?_
      · simp only
        field_simp
        ring
      · simp only
        field_simp
        ring
    have hqout : ¬ hexS
        (p.1/(Real.sqrt 3*(2*Real.pi/(Real.sqrt 3*a))), p.2/(2*Real.pi/(Real.sqrt 3*a))) :=
      fun h => hp (hrepr ▸ (scaleMap_in_hex a ha _).mpr h)
    have hdec := reflectS_decreases _ hqout
    have h3' : Real.sqrt 3^2 = 3 := Real.sq_sqrt (by norm_num)
    have hnorm : ∀ r : ℝ × ℝ, (scaleMap a r).1^2 + (scaleMap a r).2^2
        = (2*Real.pi/(Real.sqrt 3*a))^2 * (3*r.1^2 + r.2^2) := by
      intro r
      simp only [scaleMap]
      linear_combination ((2*Real.pi/(Real.sqrt 3*a))^2 * r.1^2) * h3'
    rw [← hrepr, scaleMap_reflect a ha _, hnorm, hnorm]
    apply Real.sqrt_lt_sqrt (by positivity)
    have hcsq : (0:ℝ) < (2*Real.pi/(Real.sqrt 3*a))^2 := by positivity
    exact (mul_lt_mul_left hcsq).mpr hdec
  · intro Nk1 Nk2 a1 a2 h1 h2 ha1 ha2
    rw [mp_point_scaled a ha a1 a2, scaleMap_reflectN a ha, scaleMap_in_hex a ha]
    have hb1 := alphaM_bounds Nk1 h1 a1 ha1
    have hb2 := alphaM_bounds Nk2 h2 a2 ha2
    exact reflectSN_two_in_hex a1 (-a1 + 2*a2) hb1.1 hb1.2
      (by linarith [hb2.1]) (by linarith [hb2.2])

/-- Witness for C6 at `a = 1`, an outside point `(0, 10)` and the
single-point Monkhorst-Pack grid. -/
theorem C6_folding_terminates_witness :
    (¬ is_in_hex ((0:ℝ), (10:ℝ)) 1
      ∧ Real.sqrt ((reflect_point ((0:ℝ), (10:ℝ)) 1 (b1hex 1) (b2hex 1)).1^2
          + (reflect_point ((0:ℝ), (10:ℝ)) 1 (b1hex 1) (b2hex 1)).2^2)
        < Real.sqrt (((0:ℝ), (10:ℝ)).1^2 + ((0:ℝ), (10:ℝ)).2^2))
    ∧ ((0:ℝ) ∈ linspace (-(1/2) + 1/(2*((1:ℕ):ℝ))) (1/2 - 1/(2*((1:ℕ):ℝ))) 1
      ∧ is_in_hex (reflectN 1 (b1hex 1) (b2hex 1) 2
          (0*(b1hex 1).1 + 0*(b2hex 1).1, 0*(b1hex 1).2 + 0*(b2hex 1).2)) 1) := by
  have hout : ¬ is_in_hex ((0:ℝ), (10:ℝ)) 1 := by
    intro hcontra
    obtain ⟨hA, _⟩ := hcontra
    norm_num at hA
    have hs : (1:ℝ) ≤ Real.sqrt 3 := by
      have h := Real.sqrt_le_sqrt (by norm_num : (1:ℝ) ≤ 3)
      rwa [Real.sqrt_one] at h
    have hple : 2*Real.pi/Real.sqrt 3 ≤ 2*Real.pi :=
      div_le_self (by positivity) hs
    have hpi := Real.pi_lt_315
    linarith
  have hmem : (0:ℝ) ∈ linspace (-(1/2) + 1/(2*((1:ℕ):ℝ))) (1/2 - 1/(2*((1:ℕ):ℝ))) 1 := by
    simp [linspace]
  exact ⟨⟨hout, (C6_folding_terminates 1 (by norm_num)).1 (0, 10) hout⟩,
    ⟨hmem, (C6_folding_terminates 1 (by norm_num)).2 1 1 0 0 le_rfl le_rfl hmem hmem⟩⟩

end SBEZeeman
